import Mathlib

/-!
Verification development for the slocator data-fetcher core
(`data_fetcher.py`): the recursive circle-coverage planner, the plan
flattener, the paginated search-plan state machine with sparse-region
rectification, and the zone-classification engine.

Modelling conventions.

* Python strings are modelled as `Chars := List Char`; the Python string
  operations the code uses (`split`, `startswith`, `endswith`,
  `replace`, `+`, f-strings) are defined below with Python semantics.
* Python floats are modelled as exact rationals `ℚ`.  The arithmetic the
  claims depend on (halving a radius, unit conversions, comparisons
  against constant thresholds) is exact in this model; transcendental
  floating-point computations (spherical trigonometry, geopy's geodesic)
  have no exact embedding and are modelled as free constructors or
  oracle parameters, as documented at each site.
* External collaborators (the plan store `get_plan`/`save_plan`, the
  routing oracle `calculate_distance_traffic_route`, geopy's `geodesic`,
  `storage.make_include_exclude_name`, `storage.make_ggl_layer_filename`)
  are parameters of the functions that consume them.
-/

namespace DataFetcher

/-- Python strings, modelled as lists of characters. -/
abbrev Chars : Type := List Char

/-- The separator `"_circle="` used by the plan descriptor format. -/
def csep : Chars := ['_', 'c', 'i', 'r', 'c', 'l', 'e', '=']

/-- The suffix `"_skip"` marking plan entries excluded from traversal. -/
def skipSuf : Chars := ['_', 's', 'k', 'i', 'p']

/-- The sentinel literal `"end of search plan"`. -/
def endOfPlan : Chars :=
  ['e', 'n', 'd', ' ', 'o', 'f', ' ', 's', 'e', 'a', 'r', 'c', 'h', ' ',
   'p', 'l', 'a', 'n']

/-- The literal `"_circleNumber="`. -/
def cnumSep : Chars :=
  ['_', 'c', 'i', 'r', 'c', 'l', 'e', 'N', 'u', 'm', 'b', 'e', 'r', '=']

/-- The literal `"page_token="`. -/
def ptokSep : Chars :=
  ['p', 'a', 'g', 'e', '_', 't', 'o', 'k', 'e', 'n', '=']

/-- The token delimiter `"@#$"`. -/
def atSep : Chars := ['@', '#', '$']

/-- The literal `"plan_"`. -/
def planPre : Chars := ['p', 'l', 'a', 'n', '_']

/-- The literal `"_text_search="` appended to some plan names. -/
def textSearchSuf : Chars :=
  ['_', 't', 'e', 'x', 't', '_', 's', 'e', 'a', 'r', 'c', 'h', '=']

/-- The action literal `"full data"`. -/
def fullData : Chars := ['f', 'u', 'l', 'l', ' ', 'd', 'a', 't', 'a']

/-- The engine behind Python's `s.split(sep)`: the text before and after
the first occurrence of `sep` in `s`, or `none` when `sep` does not
occur in `s`. -/
def breakOn? (sep : Chars) : Chars → Option (Chars × Chars)
  | [] => none
  | c :: t =>
    if sep.isPrefixOf (c :: t) then some ([], (c :: t).drop sep.length)
    else (breakOn? sep t).map (fun p => (c :: p.1, p.2))

/-- Whether `sep` occurs as a contiguous substring of `s`. -/
def containsSub (sep s : Chars) : Bool := (breakOn? sep s).isSome

/-- Python's `s.split(sep)` for a non-empty separator: the chunks of `s`
between consecutive occurrences of `sep`. -/
def pySplit (sep : Chars) (hsep : sep ≠ []) (s : Chars) : List Chars :=
  match h : breakOn? sep s with
  | none => [s]
  | some (a, r) => a :: pySplit sep hsep r
termination_by s.length
decreasing_by
  · induction s generalizing a r with
    | nil => simp [breakOn?] at h
    | cons c t ih =>
      rw [breakOn?] at h
      by_cases hp : List.isPrefixOf sep (c :: t)
      · simp only [hp, if_pos, Option.some.injEq, Prod.mk.injEq] at h
        obtain ⟨-, hr⟩ := h
        subst hr
        have hle : sep.length ≤ (c :: t).length :=
          (List.isPrefixOf_iff_prefix.mp hp).length_le
        have hpos : 0 < sep.length := List.length_pos.mpr hsep
        simp only [List.length_drop]
        simp only [List.length_cons] at hle ⊢
        omega
      · rw [if_neg hp] at h
        cases hbr : breakOn? sep t with
        | none => rw [hbr] at h; simp at h
        | some p =>
          rw [hbr] at h
          simp only [Option.map_some', Option.some.injEq, Prod.mk.injEq] at h
          obtain ⟨-, hr⟩ := h
          subst hr
          have := ih p.1 p.2 hbr
          simp only [List.length_cons]
          omega

/-- Decimal digits of a natural number (auxiliary, fuelled by the
number itself so the recursion is structural). -/
def natCharsGo : ℕ → ℕ → Chars
  | 0, _ => []
  | fuel + 1, n =>
    if n < 10 then [Char.ofNat (48 + n)]
    else natCharsGo fuel (n / 10) ++ [Char.ofNat (48 + n % 10)]

/-- Python's `str(n)` for a non-negative integer `n`. -/
def natChars (n : ℕ) : Chars := natCharsGo (n + 1) n

/-- The numeric value of a decimal digit character, if it is one. -/
def digitVal? (c : Char) : Option ℕ :=
  if 48 ≤ c.toNat ∧ c.toNat ≤ 57 then some (c.toNat - 48) else none

/-- Python's `int(s)` restricted to plain non-empty digit strings (the
only shape the state machine itself produces; the signs, spaces and
underscores Python additionally accepts never occur in its tokens). -/
def parseNat? (s : Chars) : Option ℕ :=
  if s = [] then none
  else s.foldlM (fun acc c => (digitVal? c).map (fun d => acc * 10 + d)) 0

/-!  ## Geometry model

`get_point_at_distance` computes a spherical destination point with
floating-point `sin`/`cos`/`atan2` (Earth radius 6371 km); its numeric
output has no exact embedding.  All claims inspect only *which* start
point, bearing and distance a point was built from, so points are
modelled as free terms remembering exactly those arguments.  The one
irrational distance the planner passes, `radius * math.sqrt(3) / 2`, is
represented exactly in the computable quadratic extension ℚ[√3]. -/

/-- An element `a + b·√3` of ℚ[√3]. -/
structure QSqrt3 where
  a : ℚ
  b : ℚ
deriving DecidableEq

/-- The constant `math.sqrt(3)`. -/
def sqrt3 : QSqrt3 := ⟨0, 1⟩

/-- Multiplication in ℚ[√3]:
`(a + b√3)(c + d√3) = (ac + 3bd) + (ad + bc)√3`. -/
def QSqrt3.mul (x y : QSqrt3) : QSqrt3 :=
  ⟨x.a * y.a + 3 * (x.b * y.b), x.a * y.b + x.b * y.a⟩

/-- Embedding of ℚ into ℚ[√3]. -/
def QSqrt3.ofRat (q : ℚ) : QSqrt3 := ⟨q, 0⟩

/-- Division of an element of ℚ[√3] by a rational. -/
def QSqrt3.divQ (x : QSqrt3) (q : ℚ) : QSqrt3 := ⟨x.a / q, x.b / q⟩

/-- A geographic point: either an original `(longitude, latitude)` pair
or the destination point of a `get_point_at_distance` call. -/
inductive GPoint where
  | base (lng lat : ℚ)
  | step (start : GPoint) (bearingDeg : ℚ) (distanceKm : QSqrt3)
deriving DecidableEq

/-- Model of `get_point_at_distance(start_point, bearing, distance)`:
the destination is recorded as a free term remembering the arguments,
which is all the structural claims inspect (see the section header). -/
def get_point_at_distance (start : GPoint) (bearing : ℚ)
    (distance : QSqrt3) : GPoint :=
  GPoint.step start bearing distance

/-- The ring distance `radius * math.sqrt(3) / 2` computed inside
`cover_circle_with_seven_circles`. -/
def ringDistance (radius : ℚ) : QSqrt3 :=
  ((QSqrt3.ofRat radius).mul sqrt3).divQ 2

/-- A coverage circle, the dictionary
`{"center": …, "radius": …, "sub_circles": […], "is_center": …}`. -/
structure Circle where
  center : GPoint
  radius : ℚ
  sub_circles : List Circle
  is_center : Bool

/-- Termination measure for the planner: `⌈2·radius⌉` as a natural
number, which halves (in the ceiling sense) at each recursive call. -/
def coverMeasure (radius : ℚ) : ℕ := (⌈(2 : ℚ) * radius⌉).toNat

/-- Model of `cover_circle_with_seven_circles(center, radius,
min_radius=2, is_center_circle=False)`.  The stopping test, the six ring
bearings `i * 60`, the ring distance `radius * sqrt(3) / 2` and the
child radius `0.5 * radius` are translated exactly; the `sub_circles`
list is the `enumerate(all_centers)` loop in which the `i = 0` element
of `all_centers = [center] + outer_centers` is the concentric child
(`is_center=True`) and the remaining six are the ring children in
bearing order. -/
def cover_circle_with_seven_circles (center : GPoint) (radius : ℚ)
    (min_radius : ℚ) (is_center_circle : Bool) : Circle :=
  let small_radius : ℚ := 0.5 * radius
  if h : (is_center_circle = true ∧ small_radius < 0.5) ∨
      (is_center_circle = false ∧ small_radius < 1) then
    { center := center, radius := radius, sub_circles := [],
      is_center := is_center_circle }
  else
    let outer_centers := (List.range 6).map
      (fun (i : ℕ) => get_point_at_distance center ((i : ℚ) * 60) (ringDistance radius))
    let sub_circles :=
      cover_circle_with_seven_circles center small_radius min_radius true ::
        outer_centers.map (fun c =>
          cover_circle_with_seven_circles c small_radius min_radius false)
    { center := center, radius := radius, sub_circles := sub_circles,
      is_center := is_center_circle }
termination_by coverMeasure radius
decreasing_by
  all_goals
  · have hr : (1 : ℚ) ≤ radius := by
      push_neg at h
      obtain ⟨h1, h2⟩ := h
      rcases Bool.eq_false_or_eq_true is_center_circle with hb | hb
      · have h3 := h1 hb
        simp only [small_radius] at h3
        linarith
      · have h3 := h2 hb
        simp only [small_radius] at h3
        linarith
    have hceil : ⌈radius⌉ < ⌈(2 : ℚ) * radius⌉ := by
      have h1 : radius + 1 ≤ 2 * radius := by linarith
      have h2 := Int.ceil_le_ceil (α := ℚ) h1
      rw [Int.ceil_add_one] at h2
      omega
    have hpos : (0 : ℤ) < ⌈(2 : ℚ) * radius⌉ :=
      Int.ceil_pos.mpr (by linarith)
    have h05 : (2 : ℚ) * (0.5 * radius) = radius := by ring
    simp only [coverMeasure, small_radius, h05]
    exact (Int.toNat_lt_toNat hpos).mpr hceil

/-- Model of `count_circles(circle)`: the number of nodes of the tree. -/
def count_circles (c : Circle) : ℕ :=
  1 + (c.sub_circles.attach.map (fun x => count_circles x.1)).sum
termination_by c
decreasing_by
  · obtain ⟨sc, hmem⟩ := x
    have h1 := List.sizeOf_lt_of_mem hmem
    cases c with
    | mk ctr rad subs isc =>
      simp only [Circle.mk.sizeOf_spec] at *
      omega

/-- All nodes of a coverage tree: the root followed by the nodes of its
sub-circles. -/
def Circle.nodes (c : Circle) : List Circle :=
  c :: (c.sub_circles.attach.map (fun x => Circle.nodes x.1)).flatten
termination_by c
decreasing_by
  · obtain ⟨sc, hmem⟩ := x
    have h1 := List.sizeOf_lt_of_mem hmem
    cases c with
    | mk ctr rad subs isc =>
      simp only [Circle.mk.sizeOf_spec] at *
      omega

/-- The per-node shape property claimed for the planner's output: a node
is a leaf exactly when half its radius is below its role's stop
threshold, and a non-leaf node has exactly seven children — a concentric
center child and six ring children at bearings `0, 60, …, 300` at ring
distance `radius·√3/2`, all of half the parent radius. -/
def NodeOk (c : Circle) : Prop :=
  (c.sub_circles = [] ↔
    ((c.is_center = true ∧ 0.5 * c.radius < 0.5) ∨
     (c.is_center = false ∧ 0.5 * c.radius < 1))) ∧
  (c.sub_circles ≠ [] →
    ∃ cc rings, c.sub_circles = cc :: rings ∧
      cc.is_center = true ∧ cc.center = c.center ∧
      cc.radius = 0.5 * c.radius ∧
      rings.length = 6 ∧
      ∀ i (h : i < rings.length),
        (rings.get ⟨i, h⟩).is_center = false ∧
        (rings.get ⟨i, h⟩).center =
          get_point_at_distance c.center ((i : ℚ) * 60) (ringDistance c.radius) ∧
        (rings.get ⟨i, h⟩).radius = 0.5 * c.radius)

/-- A full 7-ary coverage tree of depth `n`: leaves at depth `0`, and a
depth-`n+1` tree has exactly seven children, all full of depth `n`. -/
inductive FullTree : ℕ → Circle → Prop
  | leaf (c : Circle) : c.sub_circles = [] → FullTree 0 c
  | node (n : ℕ) (c : Circle) : c.sub_circles.length = 7 →
      (∀ sc ∈ c.sub_circles, FullTree n sc) → FullTree (n + 1) c

/-!  ## Plan flattener (`create_string_list`)

The descriptor embeds the floating-point longitude/latitude of the
node's center and the float `radius * 1000`; Python renders these with
`repr`-style float formatting, which has no exact embedding, so the two
renderings are abstracted as parameters.  Everything the claims rely on
(field order, delimiters, the `*` marker, the dotted position, the
ordinal) is concrete. -/

/-- Rendering oracles for the two float-valued descriptor fields. -/
structure RenderCfg where
  /-- rendering of `f"{lat}_{lng}"` for a center point (the Python
  locals `lat`/`lng` hold the first and second tuple component, i.e.
  longitude then latitude, since the planner builds `(lng, lat)`
  tuples). -/
  coordStr : GPoint → Chars
  /-- rendering of a float such as `radius * 1000`. -/
  ratStr : ℚ → Chars

/-- One descriptor string of `create_string_list`:
`f"{lat}_{lng}_{radius * 1000}_{type_string}"`, then `f"_{text_search}"`
when the text search is non-empty and non-None, then
`f"_circle={number}{center_marker}_circleNumber={total_circles}"`. -/
def descriptorString (cfg : RenderCfg) (type_string : Chars)
    (text_search : Option Chars) (c : Circle) (number : Chars)
    (ordinal : ℕ) : Chars :=
  let s := cfg.coordStr c.center ++ ['_'] ++ cfg.ratStr (c.radius * 1000) ++
    ['_'] ++ type_string
  let s := match text_search with
    | some t => if t ≠ [] then s ++ ['_'] ++ t else s
    | none => s
  let marker : Chars := if c.is_center then ['*'] else []
  s ++ csep ++ number ++ marker ++ cnumSep ++ natChars ordinal

/-- Queue measure for the breadth-first loops: total node count of the
queued trees. -/
def queueMeasure (q : List (Circle × Chars)) : ℕ :=
  (q.map (fun p => count_circles p.1)).sum

/-- The children of `(c, number)` as enqueued by `create_string_list`:
`enumerate(circle["sub_circles"], 1)` with position
`f"{number}.{i}" if number else f"{i}"`. -/
def childEntries (c : Circle) (number : Chars) : List (Circle × Chars) :=
  (c.sub_circles.enumFrom 1).map
    (fun p => (p.2, if number ≠ [] then number ++ ['.'] ++ natChars p.1
                    else natChars p.1))

/-- The `while circles_to_process:` loop of `create_string_list`: pop
the front of the queue, increment `total_circles`, emit the descriptor,
enqueue the children. -/
def cslAux (cfg : RenderCfg) (ts : Chars) (tx : Option Chars) :
    List (Circle × Chars) → ℕ → List Chars
  | [], _ => []
  | (c, number) :: rest, total =>
    descriptorString cfg ts tx c number (total + 1) ::
      cslAux cfg ts tx (rest ++ childEntries c number) (total + 1)
termination_by q => queueMeasure q
decreasing_by
  · have hcount : count_circles c =
        1 + (c.sub_circles.map count_circles).sum := by
      rw [count_circles]
      congr 1
      rw [List.attach_map_coe]
    have hchild : (List.map (fun p => count_circles p.1)
        (childEntries c number)).sum = (c.sub_circles.map count_circles).sum := by
      unfold childEntries
      rw [List.map_map]
      have : ((fun p : Circle × Chars => count_circles p.1) ∘
          (fun p : ℕ × Circle => (p.2, if number ≠ [] then
            number ++ ['.'] ++ natChars p.1 else natChars p.1))) =
          (fun p : ℕ × Circle => count_circles p.2) := rfl
      rw [this]
      have h2 : (fun p : ℕ × Circle => count_circles p.2) =
          (count_circles ∘ Prod.snd) := rfl
      rw [h2, ← List.map_map, List.enumFrom_map_snd]
    simp only [queueMeasure, List.map_cons, List.sum_cons, List.map_append,
      List.sum_append, hchild, hcount]
    omega

/-- Model of `create_string_list(circle_hierarchy, type_string,
text_search, include_hierarchy=False)`.  (The `include_hierarchy`
parameter of the Python signature is never read by the body and is
dropped here.) -/
def create_string_list (cfg : RenderCfg) (circle_hierarchy : Circle)
    (type_string : Chars) (text_search : Option Chars) : List Chars :=
  cslAux cfg type_string text_search [(circle_hierarchy, ['1'])] 0

/-- Specification-side breadth-first flattening: dequeue a node, emit
it, enqueue its children in order with dotted positions inherited from
the parent at enqueue time (`child i` appends `.i`). -/
def bfsPairs : List (Circle × Chars) → List (Circle × Chars)
  | [] => []
  | (c, number) :: rest =>
    (c, number) :: bfsPairs (rest ++
      (c.sub_circles.enumFrom 1).map
        (fun p => (p.2, number ++ ['.'] ++ natChars p.1)))
termination_by q => queueMeasure q
decreasing_by
  · have hcount : count_circles c =
        1 + (c.sub_circles.map count_circles).sum := by
      rw [count_circles]
      congr 1
      rw [List.attach_map_coe]
    have hchild : (List.map (fun p => count_circles p.1)
        ((c.sub_circles.enumFrom 1).map
          (fun p : ℕ × Circle => (p.2, number ++ ['.'] ++ natChars p.1)))).sum =
        (c.sub_circles.map count_circles).sum := by
      rw [List.map_map]
      have h2 : ((fun p : Circle × Chars => count_circles p.1) ∘
          (fun p : ℕ × Circle => (p.2, number ++ ['.'] ++ natChars p.1))) =
          (count_circles ∘ Prod.snd) := rfl
      rw [h2, ← List.map_map, List.enumFrom_map_snd]
    simp only [queueMeasure, List.map_cons, List.sum_cons, List.map_append,
      List.sum_append, hchild, hcount]
    omega

/-- The breadth-first node/position list of a coverage tree, root
position `"1"`. -/
def bfsList (c : Circle) : List (Circle × Chars) := bfsPairs [(c, ['1'])]

/-!  ## Pagination state machine and rectification -/

/-- The second element of Python's `s.split(sep)`, i.e. `split(...)[1]`
(`none` models the `IndexError` raised when `sep` does not occur). -/
def splitSecond? (sep : Chars) (hsep : sep ≠ []) (s : Chars) : Option Chars :=
  (pySplit sep hsep s).get? 1

/-- Model of
`circle_string.split("_circle=")[1].split("_")[0].replace("*", "")`
inside `add_skip_to_subcircles`. -/
def circle_number_of? (s : Chars) : Option Chars := do
  let t ← splitSecond? csep (by decide) s
  let h0 ← (pySplit ['_'] (by decide) t).get? 0
  pure (h0.filter (fun ch => ch != '*'))

/-- Model of the local `is_subcircle(circle)` of
`add_skip_to_subcircles`: re-prefix the text after the first
`"_circle="` and test `startswith(f"_circle={circle_number}.")`. -/
def is_subcircle? (circle_number : Chars) (circle : Chars) : Option Bool := do
  let t ← splitSecond? csep (by decide) circle
  pure ((csep ++ circle_number ++ ['.']).isPrefixOf (csep ++ t))

/-- Effectful map over a list (the `for circle in plan[:-1]` loop with a
possible exception per element). -/
def mapOpt (f : α → Option β) : List α → Option (List β)
  | [] => some []
  | x :: xs =>
    match f x, mapOpt f xs with
    | some y, some ys => some (y :: ys)
    | _, _ => none

/-- The per-entry body of the `add_skip_to_subcircles` loop: append
`"_skip"` when `is_subcircle(circle)` holds and the entry does not
already end in `"_skip"`. -/
def skipStep (circle_number circle : Chars) : Option Chars :=
  (is_subcircle? circle_number circle).map (fun sub =>
    if sub && !(skipSuf.isSuffixOf circle) then circle ++ skipSuf
    else circle)

/-- Model of `add_skip_to_subcircles(plan, token_plan_index)`: extract
the current entry's circle number, append `"_skip"` to every entry of
`plan[:-1]` whose `is_subcircle` test succeeds and which is not already
marked, and re-append the last entry unchanged.  `none` models the
exceptions Python raises on an out-of-range index or an entry without
`"_circle="`. -/
def add_skip_to_subcircles (plan : List Chars) (token_plan_index : ℕ) :
    Option (List Chars) := do
  let circle_string ← plan.get? token_plan_index
  let circle_number ← circle_number_of? circle_string
  let last ← plan.getLast?
  let modified ← mapOpt (skipStep circle_number) plan.dropLast
  pure (modified ++ [last])

/-- The `for i in range(current_plan_index + 1, len(rectified_plan))`
loop of `get_next_non_skip_index`, iterating over the remaining entries
with their indices. -/
def gnnsAux : List Chars → ℕ → Option ℕ
  | [], _ => none
  | s :: rest, j =>
    if skipSuf.isSuffixOf s = false ∧ s ≠ endOfPlan then some j
    else gnnsAux rest (j + 1)

/-- Model of `get_next_non_skip_index(rectified_plan,
current_plan_index)`; `none` models the `""` returned when no
non-skipped entry remains. -/
def get_next_non_skip_index (rectified_plan : List Chars)
    (current_plan_index : ℕ) : Option ℕ :=
  gnnsAux (rectified_plan.drop (current_plan_index + 1))
    (current_plan_index + 1)

/-- Model of `rectify_plan(plan_name, current_plan_index)` with the plan
store inlined: returns the rectified plan (which the Python code
persists) together with the next non-skip index. -/
def rectify_plan (plan : List Chars) (current_plan_index : ℕ) :
    Option (List Chars × Option ℕ) := do
  let rectified ← add_skip_to_subcircles plan current_plan_index
  pure (rectified, get_next_non_skip_index rectified current_plan_index)

/-- The continuation token `f"page_token={plan_name}@#${index}"`. -/
def mkToken (plan_name : Chars) (idx : ℕ) : Chars :=
  ptokSep ++ plan_name ++ atSep ++ natChars idx

/-- The token update in `fetch_ggl_nearby` after a sparse result
(`len(dataset["features"]) < 20` on a full-data fetch): rectify the
plan, then either clear the token or re-aim it at the next non-skip
index, keeping the text before `"@#$"`. -/
def token_after_rectify (next_page_token : Chars) (plan : List Chars)
    (current_plan_index : ℕ) : Option Chars := do
  let r ← rectify_plan plan current_plan_index
  pure (match r.2 with
    | none => []
    | some k =>
      ((pySplit atSep (by decide) next_page_token).headD []) ++ atSep ++
        natChars k)

/-- Failure modes of `process_req_plan` (each models a Python
exception, as commented at the raising site). -/
inductive PlanErr where
  /-- `UnboundLocalError`: a branch read a variable never assigned. -/
  | reqUnbound
  /-- unpacking or `int()` failure while parsing the token. -/
  | badToken
  /-- the plan store has no plan under the parsed name. -/
  | planNotFound
  /-- `IndexError`: the parsed index (or its successor) is out of range. -/
  | indexOut
deriving DecidableEq

/-- The outputs of `process_req_plan` that the claims inspect.  (The
function also re-seeds the request's `lng`/`lat`/`radius` by parsing
the floats of the current entry back; those fields are not modelled.) -/
structure PlanOut where
  plan_name : Chars
  next_page_token : Chars
  current_plan_index : ℕ
  saved_plan : Option (List Chars)
deriving DecidableEq

/-- Model of `process_req_plan(req_dataset, req_create_lyr)` for a
`ReqLocation` request.  `store` models the external `get_plan`;
`type_string` models `make_include_exclude_name(...)` and `tcc_string`
models `make_ggl_layer_filename(...)`, both external.  The start branch
(`page_token == "" and action == "full data"`) builds the coverage plan
only when `radius > 750`, appends the sentinel, persists the plan
(returned here as `saved_plan`), and mints the token at index 1; with
`radius <= 750` the Python body reads the never-assigned
`string_list_plan` and raises `UnboundLocalError`.  The resume branch
parses the token, loads the plan, and mints the token at the next index
unless the next entry is the sentinel. -/
def process_req_plan_location (store : Chars → Option (List Chars))
    (cfg : RenderCfg) (type_string tcc_string : Chars) (action : Chars)
    (lng lat radius : ℚ) (page_token : Chars) (text_search : Option Chars) :
    Except PlanErr PlanOut :=
  if page_token = [] ∧ action = fullData then
    if radius > 750 then
      let circle_hierarchy := cover_circle_with_seven_circles
        (GPoint.base lng lat) (radius / 1000) 2 false
      let string_list_plan :=
        create_string_list cfg circle_hierarchy type_string text_search
      let plan := string_list_plan ++ [endOfPlan]
      let plan_name := planPre ++ tcc_string
      let plan_name := match text_search with
        | some t => if t ≠ [] then plan_name ++ textSearchSuf else plan_name
        | none => plan_name
      .ok { plan_name := plan_name,
            next_page_token := mkToken plan_name 1,
            current_plan_index := 0,
            saved_plan := some plan }
    else .error .reqUnbound
  else if page_token ≠ [] then
    match pySplit atSep (by decide) page_token with
    | [left, idxs] =>
      match pySplit ptokSep (by decide) left with
      | [_, plan_name] =>
        match parseNat? idxs with
        | some current_plan_index =>
          match store plan_name with
          | some plan =>
            match plan.get? current_plan_index with
            | some _ =>
              match plan.get? (current_plan_index + 1) with
              | some nxt =>
                .ok { plan_name := plan_name,
                      next_page_token := if nxt = endOfPlan then []
                        else mkToken plan_name (current_plan_index + 1),
                      current_plan_index := current_plan_index,
                      saved_plan := none }
              | none => .error .indexOut
            | none => .error .indexOut
          | none => .error .planNotFound
        | none => .error .badToken
      | _ => .error .badToken
    | _ => .error .badToken
  else .error .reqUnbound

/-!  Specification-side notions used to state the rectification
claims. -/

/-- The text of an entry after its first `"_circle="`, when present. -/
def circleSuffix? (s : Chars) : Option Chars := splitSecond? csep (by decide) s

/-- The raw position field of a circle suffix: the text up to the first
underscore. -/
def rawPos (t : Chars) : Chars := (pySplit ['_'] (by decide) t).headD []

/-- The hierarchical position of an entry: the raw position field with
the `*` center marker removed. -/
def posOf (t : Chars) : Chars := (rawPos t).filter (fun ch => ch != '*')

/-- Well-formedness of one plan entry for the rectification claims:
`"_circle="` occurs, and the raw position field (the text between the
first `"_circle="` and the next underscore) is a marker-free text
optionally followed by one trailing `*` center marker. -/
def entryWF (s : Chars) : Bool :=
  match circleSuffix? s with
  | none => false
  | some t => rawPos t == posOf t || rawPos t == posOf t ++ ['*']

/-- Dotted-prefix strict descendance of hierarchical positions:
`parent` matches `child` when `child` starts with `parent ++ "."`
(so `1.3` matches `1.3.2` but not `1.30`). -/
def isStrictDesc (parent child : Chars) : Bool :=
  (parent ++ ['.']).isPrefixOf child

/-- Eligibility of a plan entry for `get_next_non_skip_index`: neither
skip-marked nor the sentinel. -/
def eligible (s : Chars) : Prop :=
  skipSuf.isSuffixOf s = false ∧ s ≠ endOfPlan

/-!  ## Zone classification engine (`process_color_based_on`)

Distances come from floating-point trigonometry (`calculate_distance_km`,
a Haversine over `math.sin`/`math.cos`) or from the external geopy
`geodesic(...).meters`; both are modelled as oracle parameters
`hav`/`geod`.  The routing oracle `calculate_distance_traffic_route` is
external and is modelled as a parameter returning either route legs or
the per-pair error placeholder the code records on exceptions. -/

/-- A `{latitude, longitude}` pair as built by `process_color_based_on`
from a feature's `geometry.coordinates` (`[0]` is longitude, `[1]` is
latitude). -/
structure Coord where
  latitude : ℚ
  longitude : ℚ
deriving DecidableEq

/-- A point feature restricted to the parts the classifier touches: its
coordinates and its numeric properties. -/
structure Feature where
  coords : Coord
  props : List (Chars × ℚ)
deriving DecidableEq

/-- An output feature of the influence-gradient mode:
`assign_point_properties(point)` plus the `influence_score` property
(set to the score, or to `None` for unallocated points). -/
structure OutFeature where
  coords : Coord
  props : List (Chars × ℚ)
  influence_score : Option ℚ
deriving DecidableEq

/-- One route of a routing-oracle response; `static_duration` is the
string field `f"{…}s"` (or `None`). -/
structure RouteLeg where
  static_duration : Option Chars
deriving DecidableEq

/-- One element of `target_routes.routes`: either a successful response
carrying its `route` list, or the `{"error": …}` placeholder recorded
when the route call raised. -/
inductive RouteResp where
  | errorResp
  | routeResp (route : List RouteLeg)
deriving DecidableEq

/-- Model of `calculate_nearest_points(category_coordinates,
bussiness_target_coordinates, num_points_per_target=3)`: per target,
all candidate distances are computed with the Haversine oracle `hav`,
sorted ascending (Python's `sorted` is stable, as is `mergeSort`), and
truncated to `num_points_per_target`. -/
def calculate_nearest_points (hav : Coord → Coord → ℚ)
    (category_coordinates : List Coord)
    (bussiness_target_coordinates : List Coord)
    (num_points_per_target : ℕ) : List (Coord × List Coord) :=
  bussiness_target_coordinates.map (fun target =>
    let distances := category_coordinates.map (fun loc => (loc, hav target loc))
    let nearest := (distances.mergeSort
      (fun a b => decide (a.2 ≤ b.2))).take num_points_per_target
    (target, nearest.map (fun p => p.1)))

/-- `AVERAGE_SPEED_MPS = 11.11` (m/s). -/
def AVERAGE_SPEED_MPS : ℚ := 1111 / 100

/-- The estimated straight-line distance in meters for a drive-time
budget of `cov` minutes: `AVERAGE_SPEED_MPS * (cov * 60)`. -/
def estimatedDistance (cov : ℚ) : ℚ := AVERAGE_SPEED_MPS * (cov * 60)

/-- The drive-time pre-filter: keep a nearest candidate exactly when its
geodesic distance to the target is `<=` the estimated distance. -/
def drive_filtered (geod : Coord → Coord → ℚ) (cov : ℚ)
    (nearest : List (Coord × List Coord)) : List (Coord × List Coord) :=
  nearest.map (fun tc =>
    (tc.1, tc.2.filter (fun c => decide (geod tc.1 c ≤ estimatedDistance cov))))

/-- Model of `calculate_nearest_points_Gmap`: one routing-oracle call
per surviving (target, nearest) pair, in order. -/
def route_results (oracle : Coord → Coord → RouteResp)
    (filtered : List (Coord × List Coord)) : List (Coord × List RouteResp) :=
  filtered.map (fun tc => (tc.1, tc.2.map (fun c => oracle tc.1 c)))

/-- `int(route.route[0].static_duration.replace("s", ""))`. -/
def staticSeconds? (s : Chars) : Option ℕ :=
  parseNat? (s.filter (fun ch => ch != 's'))

/-- The `min_static_time` loop over one target's routes.  A
`routeResp` contributes when its `route` list is non-empty and the
first leg's `static_duration` is truthy; `.error ()` models the
`ValueError` Python would raise on a non-numeric duration.
Modelled from the spec: an `errorResp` placeholder carries no route
data and contributes nothing (§4.6/§5: a per-pair routing failure is
recorded as an error placeholder rather than aborting the batch). -/
def minStaticAux : List RouteResp → Option ℕ → Except Unit (Option ℕ)
  | [], acc => .ok acc
  | .errorResp :: rest, acc => minStaticAux rest acc
  | .routeResp [] :: rest, acc => minStaticAux rest acc
  | .routeResp (leg :: _) :: rest, acc =>
    match leg.static_duration with
    | none => minStaticAux rest acc
    | some s =>
      if s = [] then minStaticAux rest acc
      else match staticSeconds? s with
        | none => .error ()
        | some n =>
          minStaticAux rest (some (match acc with
            | none => n
            | some m => min m n))

/-- The coordinate match of the `for change_point in
change_layer_dataset["features"]` lookup loop (`coordinates[1] ==
latitude and coordinates[0] == longitude`). -/
def coordsMatch (t : Coord) (f : Feature) : Bool :=
  decide (f.coords.latitude = t.latitude) &&
    decide (f.coords.longitude = t.longitude)

/-- The classification loop of the drive-time mode: per target (in
order), find the first change feature with matching coordinates and
append it to the `within`/`outside`/`unallocated` bucket according to
its minimum static time (`min/60 <= coverage_value` ⇒ within; a target
with no static time at all ⇒ unallocated; a target with no matching
feature appends nothing, which cannot happen for targets built from the
change layer itself). -/
def fillBuckets (change : List Feature) (cov : ℚ) :
    List (Coord × Option ℕ) → List Feature × List Feature × List Feature
  | [] => ([], [], [])
  | (t, m) :: rest =>
    let wou := fillBuckets change cov rest
    match change.find? (coordsMatch t) with
    | none => wou
    | some f =>
      match m with
      | some v =>
        if (v : ℚ) / 60 ≤ cov then (f :: wou.1, wou.2.1, wou.2.2)
        else (wou.1, f :: wou.2.1, wou.2.2)
      | none => (wou.1, wou.2.1, f :: wou.2.2)

/-- A drive-time output layer restricted to the fields the claims
inspect.  (The full Python layer also carries ids, legends and
descriptions; `layer_name` here is the `category` tag of the
`layer_configs` entry.) -/
structure ZLayer where
  layer_name : Chars
  points_color : Chars
  features : List Feature
deriving DecidableEq

/-- The color literal `"#FFFFFF"`. -/
def whiteColor : Chars := ['#', 'F', 'F', 'F', 'F', 'F', 'F']

/-- The `category` tag `"within_drivetime"` (abbreviated). -/
def withinTag : Chars := ['w', 'i', 't', 'h', 'i', 'n']

/-- The `category` tag `"outside_drivetime"` (abbreviated). -/
def outsideTag : Chars := ['o', 'u', 't', 's', 'i', 'd', 'e']

/-- The `category` tag `"unallocated_drivetime"` (abbreviated). -/
def unallocTag : Chars := ['u', 'n', 'a', 'l', 'l', 'o', 'c']

/-- The three `layer_configs` of the drive-time mode, filtered to the
non-empty ones (`if config["features"]:`).  Colors are
`req.color_grid_choice[0]`, `req.color_grid_choice[-1]` and `"#FFFFFF"`;
Python raises on an empty palette, modelled by the `headD`/`getLastD`
defaults never being claimed. -/
def driveLayers (palette : List Chars) (w o u : List Feature) :
    List ZLayer :=
  ([⟨withinTag, palette.headD whiteColor, w⟩,
    ⟨outsideTag, palette.getLastD whiteColor, o⟩,
    ⟨unallocTag, whiteColor, u⟩] : List ZLayer).filter
    (fun L => !L.features.isEmpty)

/-- The drive-time branch of `process_color_based_on`: nearest-2
computation, estimated-distance pre-filter, routing calls for the
surviving pairs, classification by minimum static duration, and layer
construction for the non-empty buckets. -/
def process_drive_time (hav geod : Coord → Coord → ℚ)
    (oracle : Coord → Coord → RouteResp) (change based : List Feature)
    (cov : ℚ) (palette : List Chars) : Except Unit (List ZLayer) := do
  let based_coords := based.map (fun f => f.coords)
  let change_coords := change.map (fun f => f.coords)
  let nearest := calculate_nearest_points hav based_coords change_coords 2
  let filtered := drive_filtered geod cov nearest
  let rr := route_results oracle filtered
  let ms ← rr.mapM (fun tc =>
    (minStaticAux tc.2 none).map (fun m => (tc.1, m)))
  let wou := fillBuckets change cov ms
  pure (driveLayers palette wou.1 wou.2.1 wou.2.2)

/-- Model of `average_metric_of_surrounding_points(color_based_on,
point, based_on_dataset, radius)`: the mean of property `key` over the
based-on features that carry it and lie within `radius` meters
(`np.mean`), or `none` when there is no such feature. -/
def average_metric (geod : Coord → Coord → ℚ) (key : Chars) (p : Coord)
    (based : List Feature) (radius : ℚ) : Option ℚ :=
  let nearby := based.filterMap (fun f2 =>
    match f2.props.lookup key with
    | none => none
    | some v => if geod p f2.coords ≤ radius then some v else none)
  if nearby = [] then none else some (nearby.sum / nearby.length)

/-- `np.percentile(xs, q)` with the default linear interpolation:
virtual index `pos = q/100 * (n-1)` into the sorted data, interpolating
between the neighbouring elements. -/
def npPercentile (xs : List ℚ) (q : ℚ) : ℚ :=
  let a := xs.mergeSort (fun x y => decide (x ≤ y))
  let n := a.length
  let pos := q / 100 * ((n : ℚ) - 1)
  let i := (⌊pos⌋).toNat
  let lo := a.getD i 0
  let hi := a.getD (i + 1) lo
  lo + (pos - (⌊pos⌋ : ℚ)) * (hi - lo)

/-- The five percentile levels `[16.67, 33.33, 50, 66.67, 83.33]`. -/
def influencePercentiles : List ℚ :=
  [1667 / 100, 3333 / 100, 50, 6667 / 100, 8333 / 100]

/-- The band index of a scored point: the first threshold (ascending)
satisfied with `<=`, else `len(thresholds)`; an unscored point goes to
the final bucket (`layer_data[-1]`, index `len(thresholds) + 1`). -/
def bandOf (thresholds : List ℚ) : Option ℚ → ℕ
  | none => thresholds.length + 1
  | some v => (thresholds.findIdx? (fun th => decide (v ≤ th))).getD
      thresholds.length

/-- An influence-gradient output layer restricted to the fields the
claims inspect. -/
structure GLayer where
  layer_name : Chars
  points_color : Chars
  features : List OutFeature
deriving DecidableEq

/-- The layer name `"Unallocated Points"`. -/
def unallocName : Chars :=
  ['U', 'n', 'a', 'l', 'l', 'o', 'c', 'a', 't', 'e', 'd', ' ',
   'P', 'o', 'i', 'n', 't', 's']

/-- The layer name `f"Gradient Layer {i+1}"`. -/
def gradientName (i : ℕ) : Chars :=
  ['G', 'r', 'a', 'd', 'i', 'e', 'n', 't', ' ',
   'L', 'a', 'y', 'e', 'r', ' '] ++ natChars i

/-- The output feature of one change point in influence mode: a copy
tagged with its `influence_score` (the score, or `None`). -/
def scoreTagged (f : Feature) (score : Option ℚ) : OutFeature :=
  ⟨f.coords, f.props, score⟩

/-- The `layer_data` bucket of index `i`: the change points assigned to
band `i`, in input order (the Python loop appends each point to exactly
`layer_data[layer_index]`; a filter by assigned band reproduces the
buckets including their order).  The Python code keys scores through a
per-point `uuid` map; scores are aligned positionally here, which is
equivalent because the ids are unique. -/
def bucketOf (thresholds : List ℚ) (withScores : List (Feature × Option ℚ))
    (i : ℕ) : List OutFeature :=
  (withScores.filter (fun fs => bandOf thresholds fs.2 == i)).map
    (fun fs => scoreTagged fs.1 fs.2)

/-- The influence-gradient branch of `process_color_based_on`:
per-point averaged scores, five percentile thresholds over the non-null
scores (`np.percentile` raises on an empty array, modelled by
`.error ()`), band assignment, and one layer per non-empty bucket with
positional palette colors falling back to white. -/
def process_influence (geod : Coord → Coord → ℚ) (key : Chars)
    (change based : List Feature) (radius : ℚ) (palette : List Chars) :
    Except Unit (List GLayer) :=
  let scored := change.map (fun f => average_metric geod key f.coords based radius)
  let influence_scores := scored.reduceOption
  if influence_scores = [] then .error ()
  else
    let thresholds := influencePercentiles.map (npPercentile influence_scores)
    let withScores := change.zip scored
    let nBuckets := thresholds.length + 2
    let buckets := (List.range nBuckets).map
      (fun i => (i, bucketOf thresholds withScores i))
    .ok ((buckets.filter (fun b => !b.2.isEmpty)).map (fun b =>
      { layer_name := if b.1 = nBuckets - 1 then unallocName
          else gradientName (b.1 + 1),
        points_color := if b.1 < palette.length then palette.getD b.1 whiteColor
          else whiteColor,
        features := b.2 }))

/-!  ## Theorems -/

/-- Abbreviation for the planner's stopping condition. -/
def stopCond (radius : ℚ) (f : Bool) : Prop :=
  (f = true ∧ 0.5 * radius < 0.5) ∨ (f = false ∧ 0.5 * radius < 1)

theorem cover_eq_stop (center : GPoint) (radius m : ℚ) (f : Bool)
    (h : stopCond radius f) :
    cover_circle_with_seven_circles center radius m f =
      { center := center, radius := radius, sub_circles := [],
        is_center := f } := by
  rw [cover_circle_with_seven_circles]
  simp only [stopCond] at h
  simp only [h, dite_true]

theorem cover_eq_go (center : GPoint) (radius m : ℚ) (f : Bool)
    (h : ¬ stopCond radius f) :
    cover_circle_with_seven_circles center radius m f =
      { center := center, radius := radius,
        sub_circles :=
          cover_circle_with_seven_circles center (0.5 * radius) m true ::
            ((List.range 6).map (fun (i : ℕ) =>
              get_point_at_distance center ((i : ℚ) * 60) (ringDistance radius))).map
              (fun c => cover_circle_with_seven_circles c (0.5 * radius) m false),
        is_center := f } := by
  rw [cover_circle_with_seven_circles]
  simp only [stopCond] at h
  simp only [h, dite_false]

theorem cover_is_center (center : GPoint) (radius m : ℚ) (f : Bool) :
    (cover_circle_with_seven_circles center radius m f).is_center = f := by
  rw [cover_circle_with_seven_circles]
  split <;> rfl

theorem cover_center (center : GPoint) (radius m : ℚ) (f : Bool) :
    (cover_circle_with_seven_circles center radius m f).center = center := by
  rw [cover_circle_with_seven_circles]
  split <;> rfl

theorem cover_radius (center : GPoint) (radius m : ℚ) (f : Bool) :
    (cover_circle_with_seven_circles center radius m f).radius = radius := by
  rw [cover_circle_with_seven_circles]
  split <;> rfl

theorem coverMeasure_lt (radius : ℚ) (f : Bool) (h : ¬ stopCond radius f) :
    coverMeasure (0.5 * radius) < coverMeasure radius := by
  have hr : (1 : ℚ) ≤ radius := by
    simp only [stopCond] at h
    push_neg at h
    obtain ⟨h1, h2⟩ := h
    rcases Bool.eq_false_or_eq_true f with hb | hb
    · have h3 := h1 hb
      linarith
    · have h3 := h2 hb
      linarith
  have hceil : ⌈radius⌉ < ⌈(2 : ℚ) * radius⌉ := by
    have h1 : radius + 1 ≤ 2 * radius := by linarith
    have h2 := Int.ceil_le_ceil (α := ℚ) h1
    rw [Int.ceil_add_one] at h2
    omega
  have hpos : (0 : ℤ) < ⌈(2 : ℚ) * radius⌉ :=
    Int.ceil_pos.mpr (by linarith)
  have h05 : (2 : ℚ) * (0.5 * radius) = radius := by ring
  simp only [coverMeasure, h05]
  exact (Int.toNat_lt_toNat hpos).mpr hceil

theorem nodes_eq (c : Circle) :
    c.nodes = c :: (c.sub_circles.map Circle.nodes).flatten := by
  rw [Circle.nodes]
  congr 1
  rw [List.attach_map_coe]

theorem count_circles_eq (c : Circle) :
    count_circles c = 1 + (c.sub_circles.map count_circles).sum := by
  rw [count_circles]
  congr 1
  rw [List.attach_map_coe]

theorem cover_nodes_ok_all (N : ℕ) :
    ∀ (radius : ℚ) (center : GPoint) (m : ℚ) (f : Bool),
      coverMeasure radius ≤ N →
      ∀ n ∈ (cover_circle_with_seven_circles center radius m f).nodes,
        NodeOk n := by
  induction N with
  | zero =>
    intro radius center m f hN n hn
    by_cases hg : stopCond radius f
    · rw [cover_eq_stop center radius m f hg, nodes_eq] at hn
      simp only [List.map_nil, List.flatten_nil, List.mem_singleton] at hn
      subst hn
      exact ⟨iff_of_true rfl hg, fun hne => absurd rfl hne⟩
    · exact absurd (coverMeasure_lt radius f hg) (by omega)
  | succ N ih =>
    intro radius center m f hN n hn
    by_cases hg : stopCond radius f
    · rw [cover_eq_stop center radius m f hg, nodes_eq] at hn
      simp only [List.map_nil, List.flatten_nil, List.mem_singleton] at hn
      subst hn
      exact ⟨iff_of_true rfl hg, fun hne => absurd rfl hne⟩
    · rw [cover_eq_go center radius m f hg, nodes_eq] at hn
      have hm : coverMeasure (0.5 * radius) ≤ N := by
        have := coverMeasure_lt radius f hg
        omega
      rcases List.mem_cons.mp hn with hroot | hsub
      · subst hroot
        constructor
        · exact iff_of_false (by simp) hg
        · intro _
          refine ⟨cover_circle_with_seven_circles center (0.5 * radius) m true,
            _, rfl, cover_is_center .., cover_center .., cover_radius .., by simp, ?_⟩
          intro i h
          have h6 : i < 6 := by simpa using h
          simp only [List.get_eq_getElem, List.getElem_map, List.getElem_range]
          exact ⟨cover_is_center .., by rw [cover_center], cover_radius ..⟩
      · obtain ⟨l, hl, hnl⟩ := List.mem_flatten.mp hsub
        obtain ⟨sc, hsc, rfl⟩ := List.mem_map.mp hl
        rcases List.mem_cons.mp hsc with rfl | hring
        · exact ih (0.5 * radius) center m true hm n hnl
        · obtain ⟨c', _, rfl⟩ := List.mem_map.mp hring
          exact ih (0.5 * radius) c' m false hm n hnl

/-- C1: for every center and every `radius_km > 0`,
`cover_circle_with_seven_circles` terminates (it is a total function of
this development) and returns a tree in which a node is a leaf exactly
when `0.5 *` its radius is below its role's stop threshold (`0.5` km
for a center child, `1` km otherwise), and every non-leaf node has
exactly 7 children: one center child (`is_center = true`) at the same
center point and six ring children (`is_center = false`) at bearings
`0, 60, 120, 180, 240, 300` degrees at distance `radius * sqrt(3)/2`
from the parent center, every child having radius `0.5 *` the parent's
radius. -/
theorem C1_cover_structure (center : GPoint) (radius m : ℚ)
    (hr : 0 < radius) :
    ∀ n ∈ (cover_circle_with_seven_circles center radius m false).nodes,
      NodeOk n :=
  cover_nodes_ok_all (coverMeasure radius) radius center m false le_rfl

/-- Witness for C1 at center `(0, 0)`, radius 8 km, `min_radius` 2. -/
theorem C1_cover_structure_witness :
    (0 : ℚ) < 8 ∧
      ∀ n ∈ (cover_circle_with_seven_circles (GPoint.base 0 0) 8 2
        false).nodes, NodeOk n :=
  ⟨by norm_num, C1_cover_structure (GPoint.base 0 0) 8 2 (by norm_num)⟩

/-- C9 counterexample: `cover_circle_with_seven_circles` performs no
input validation; called at radius `-1` it raises nothing and returns a
circle tree (a leaf with the degenerate radius), contradicting the
claim that it fails with `InvalidInput` and returns no tree. -/
theorem C9_counterexample :
    cover_circle_with_seven_circles (GPoint.base 0 0) (-1) 2 false =
      { center := GPoint.base 0 0, radius := -1, sub_circles := [],
        is_center := false } :=
  cover_eq_stop _ _ _ _ (Or.inr ⟨rfl, by norm_num⟩)

/-- C9 (amended): for every center, `cover_circle_with_seven_circles`
called with `radius_km <= 0` does not recurse (and a fortiori does not
recurse indefinitely): it immediately returns a childless leaf carrying
the given center and radius.  No `InvalidInput` failure exists in the
code; the function has no error path at all. -/
theorem C9_amended (center : GPoint) (radius m : ℚ) (f : Bool)
    (h : radius ≤ 0) :
    cover_circle_with_seven_circles center radius m f =
      { center := center, radius := radius, sub_circles := [],
        is_center := f } := by
  apply cover_eq_stop
  rcases Bool.eq_false_or_eq_true f with hb | hb
  · exact Or.inl ⟨hb, by nlinarith⟩
  · exact Or.inr ⟨hb, by nlinarith⟩

/-- Witness for the amended C9 at center `(0, 0)`, radius `0`. -/
theorem C9_amended_witness :
    (0 : ℚ) ≤ 0 ∧
      cover_circle_with_seven_circles (GPoint.base 0 0) 0 2 false =
        { center := GPoint.base 0 0, radius := 0, sub_circles := [],
          is_center := false } :=
  ⟨le_refl 0, C9_amended (GPoint.base 0 0) 0 2 false (le_refl 0)⟩

theorem cover_min_irrelevant_aux (N : ℕ) :
    ∀ (radius : ℚ) (center : GPoint) (m1 m2 : ℚ) (f : Bool),
      coverMeasure radius ≤ N →
      cover_circle_with_seven_circles center radius m1 f =
        cover_circle_with_seven_circles center radius m2 f := by
  induction N with
  | zero =>
    intro radius center m1 m2 f hN
    by_cases hg : stopCond radius f
    · rw [cover_eq_stop center radius m1 f hg,
        cover_eq_stop center radius m2 f hg]
    · exact absurd (coverMeasure_lt radius f hg) (by omega)
  | succ N ih =>
    intro radius center m1 m2 f hN
    by_cases hg : stopCond radius f
    · rw [cover_eq_stop center radius m1 f hg,
        cover_eq_stop center radius m2 f hg]
    · rw [cover_eq_go center radius m1 f hg,
        cover_eq_go center radius m2 f hg]
      have hm : coverMeasure (0.5 * radius) ≤ N := by
        have := coverMeasure_lt radius f hg
        omega
      have hhead := ih (0.5 * radius) center m1 m2 true hm
      have htail : ∀ c, cover_circle_with_seven_circles c (0.5 * radius) m1
          false = cover_circle_with_seven_circles c (0.5 * radius) m2 false :=
        fun c => ih (0.5 * radius) c m1 m2 false hm
      simp only [Circle.mk.injEq, List.cons.injEq, true_and, and_true]
      exact ⟨hhead, List.map_congr_left (fun c _ => htail c)⟩

/-- C10: the `min_radius` argument of `cover_circle_with_seven_circles`
has no effect on the result: for every center, radius, `is_center` flag
and any two values `m1`, `m2`, the results coincide — the parameter
(default 2) is passed down every recursive call but never read, the
stop condition depending only on the hard-coded `0.5` km and `1` km
thresholds. -/
theorem C10_min_radius_unused (center : GPoint) (radius m1 m2 : ℚ)
    (f : Bool) :
    cover_circle_with_seven_circles center radius m1 f =
      cover_circle_with_seven_circles center radius m2 f :=
  cover_min_irrelevant_aux (coverMeasure radius) radius center m1 m2 f le_rfl

theorem queueMeasure_cons (c : Circle) (num : Chars)
    (rest : List (Circle × Chars)) :
    queueMeasure ((c, num) :: rest) = count_circles c + queueMeasure rest := by
  simp [queueMeasure]

theorem queueMeasure_append (q1 q2 : List (Circle × Chars)) :
    queueMeasure (q1 ++ q2) = queueMeasure q1 + queueMeasure q2 := by
  simp [queueMeasure]

theorem queueMeasure_childEntries (c : Circle) (num : Chars) :
    queueMeasure (childEntries c num) =
      (c.sub_circles.map count_circles).sum := by
  unfold queueMeasure childEntries
  rw [List.map_map]
  have h2 : ((fun p : Circle × Chars => count_circles p.1) ∘
      (fun p : ℕ × Circle => (p.2, if num ≠ [] then
        num ++ ['.'] ++ natChars p.1 else natChars p.1))) =
      (count_circles ∘ Prod.snd) := rfl
  rw [h2, ← List.map_map, List.enumFrom_map_snd]

theorem childEntries_of_ne (c : Circle) (num : Chars) (h : num ≠ []) :
    childEntries c num = (c.sub_circles.enumFrom 1).map
      (fun p => (p.2, num ++ ['.'] ++ natChars p.1)) := by
  unfold childEntries
  simp only [h, ne_eq, not_false_iff, if_pos]

theorem cslAux_spec (cfg : RenderCfg) (ts : Chars) (tx : Option Chars)
    (N : ℕ) :
    ∀ (q : List (Circle × Chars)) (total : ℕ), queueMeasure q ≤ N →
      (∀ p ∈ q, p.2 ≠ ([] : Chars)) →
      (cslAux cfg ts tx q total).length = queueMeasure q ∧
      ∀ k, k < queueMeasure q →
        ∃ pr, (bfsPairs q).get? k = some pr ∧
          (cslAux cfg ts tx q total).get? k =
            some (descriptorString cfg ts tx pr.1 pr.2 (total + k + 1)) := by
  induction N with
  | zero =>
    intro q total hN hq
    match q with
    | [] => exact ⟨by simp [cslAux, queueMeasure], fun k hk => by
        simp [queueMeasure] at hk⟩
    | (c, num) :: rest =>
      rw [queueMeasure_cons] at hN
      have h1 : 1 ≤ count_circles c := by
        rw [count_circles_eq]; omega
      omega
  | succ N ih =>
    intro q total hN hq
    match q with
    | [] => exact ⟨by simp [cslAux, queueMeasure], fun k hk => by
        simp [queueMeasure] at hk⟩
    | (c, num) :: rest =>
      have hnum : num ≠ [] := hq (c, num) (List.mem_cons_self _ _)
      have hchild : childEntries c num = (c.sub_circles.enumFrom 1).map
          (fun p => (p.2, num ++ ['.'] ++ natChars p.1)) :=
        childEntries_of_ne c num hnum
      have hmeas : queueMeasure (rest ++ childEntries c num) =
          queueMeasure ((c, num) :: rest) - 1 := by
        rw [queueMeasure_append, queueMeasure_childEntries,
          queueMeasure_cons, count_circles_eq]
        omega
      have hle : queueMeasure (rest ++ childEntries c num) ≤ N := by
        rw [queueMeasure_append, queueMeasure_childEntries]
        rw [queueMeasure_cons, count_circles_eq] at hN
        omega
      have hqnew : ∀ p ∈ rest ++ childEntries c num, p.2 ≠ ([] : Chars) := by
        intro p hp
        rcases List.mem_append.mp hp with hp | hp
        · exact hq p (List.mem_cons_of_mem _ hp)
        · rw [hchild] at hp
          obtain ⟨pr, -, rfl⟩ := List.mem_map.mp hp
          simp
      obtain ⟨ihlen, ihget⟩ := ih (rest ++ childEntries c num) (total + 1)
        hle hqnew
      constructor
      · rw [cslAux, List.length_cons, ihlen, hmeas, queueMeasure_cons,
          count_circles_eq]
        rw [queueMeasure_cons, count_circles_eq] at hN
        omega
      · intro k hk
        match k with
        | 0 =>
          refine ⟨(c, num), ?_, ?_⟩
          · rw [bfsPairs]
            rfl
          · rw [cslAux]
            rfl
        | k + 1 =>
          have hk' : k < queueMeasure (rest ++ childEntries c num) := by
            rw [hmeas]
            omega
          obtain ⟨pr, hbfs, hcsl⟩ := ihget k hk'
          refine ⟨pr, ?_, ?_⟩
          · rw [bfsPairs]
            rw [List.get?_cons_succ, ← hchild]
            exact hbfs
          · rw [cslAux, List.get?_cons_succ, hcsl]
            congr 2
            omega

theorem count_circles_of_full (n : ℕ) (c : Circle) (h : FullTree n c) :
    count_circles c = Finset.sum (Finset.range (n + 1)) (fun i => 7 ^ i) := by
  induction h with
  | leaf c hleaf => simp [count_circles_eq, hleaf]
  | node n c hlen hsub ih =>
    rw [count_circles_eq]
    have hsum : (c.sub_circles.map count_circles).sum =
        7 * Finset.sum (Finset.range (n + 1)) (fun i => 7 ^ i) := by
      have hall : ∀ x ∈ c.sub_circles.map count_circles,
          x = Finset.sum (Finset.range (n + 1)) (fun i => 7 ^ i) := by
        intro x hx
        obtain ⟨sc, hsc, rfl⟩ := List.mem_map.mp hx
        exact ih sc hsc
      rw [List.sum_eq_card_nsmul _ _ hall, List.length_map, hlen]
      simp [mul_comm]
    rw [hsum, Finset.sum_range_succ' (fun i => 7 ^ i) (n + 1)]
    simp only [pow_succ, pow_zero]
    rw [← Finset.sum_mul]
    ring

theorem queueMeasure_enum_map (subs : List Circle) (g : ℕ × Circle → Chars) :
    queueMeasure ((subs.enumFrom 1).map (fun p => (p.2, g p))) =
      (subs.map count_circles).sum := by
  unfold queueMeasure
  rw [List.map_map]
  have h2 : ((fun p : Circle × Chars => count_circles p.1) ∘
      (fun p : ℕ × Circle => (p.2, g p))) =
      (count_circles ∘ Prod.snd) := rfl
  rw [h2, ← List.map_map, List.enumFrom_map_snd]

theorem bfsPairs_length (N : ℕ) :
    ∀ q : List (Circle × Chars), queueMeasure q ≤ N →
      (bfsPairs q).length = queueMeasure q := by
  induction N with
  | zero =>
    intro q hN
    match q with
    | [] => simp [bfsPairs, queueMeasure]
    | (c, num) :: rest =>
      rw [queueMeasure_cons] at hN
      have h1 : 1 ≤ count_circles c := by
        rw [count_circles_eq]; omega
      omega
  | succ N ih =>
    intro q hN
    match q with
    | [] => simp [bfsPairs, queueMeasure]
    | (c, num) :: rest =>
      have hle : queueMeasure (rest ++ (c.sub_circles.enumFrom 1).map
          (fun p => (p.2, num ++ ['.'] ++ natChars p.1))) ≤ N := by
        rw [queueMeasure_append, queueMeasure_enum_map]
        rw [queueMeasure_cons, count_circles_eq] at hN
        omega
      rw [bfsPairs, List.length_cons, ih _ hle, queueMeasure_append,
        queueMeasure_enum_map, queueMeasure_cons, count_circles_eq]
      omega

theorem descriptorString_eq (cfg : RenderCfg) (ts : Chars)
    (tx : Option Chars) (c : Circle) (number : Chars) (ordinal : ℕ) :
    descriptorString cfg ts tx c number ordinal =
      (cfg.coordStr c.center ++ ['_'] ++ cfg.ratStr (c.radius * 1000) ++
        ['_'] ++ ts ++
        (match tx with
          | some t => if t ≠ [] then ['_'] ++ t else []
          | none => ([] : Chars))) ++
      csep ++ number ++ (if c.is_center then ['*'] else []) ++
      cnumSep ++ natChars ordinal := by
  unfold descriptorString
  cases tx with
  | none => simp [List.append_assoc]
  | some t =>
    by_cases h : t = ([] : Chars) <;> simp [h, List.append_assoc]

/-- C2: for every coverage tree, type tag and text search,
`create_string_list` returns exactly one descriptor string per tree
node (part 1: the output length is the node count); the `k`-th emitted
descriptor (`k` counted from 0 here, `circleNumber = k + 1`) belongs to
the `k`-th node of the breadth-first traversal in which each dequeued
node's children are enqueued in sub-circle order (for planner trees:
center child first, then the six ring children) with dotted positions
inherited from the parent at enqueue time — root position `"1"`, child
`i` appending `.i` — and reads
`<longitude>_<latitude>_<radiusMeters>_<typeTag>[_<textSearch>]`
`_circle=<position>[*]_circleNumber=<k+1>`, the text search appearing
exactly when non-empty and non-null and the `*` exactly on center
nodes, so ordinals form the contiguous sequence `1..N` (part 2);
flattening a full depth-`n` tree yields `Σ_{i≤n} 7^i` descriptors
(part 3); and the caller (`process_req_plan`) persists exactly these
descriptors with the single sentinel `"end of search plan"` appended
(part 4). -/
theorem C2_create_string_list (cfg : RenderCfg) (tree : Circle)
    (ts : Chars) (tx : Option Chars) :
    (create_string_list cfg tree ts tx).length = count_circles tree ∧
    (∀ k pr, (bfsList tree).get? k = some pr →
      (create_string_list cfg tree ts tx).get? k =
        some ((cfg.coordStr pr.1.center ++ ['_'] ++
            cfg.ratStr (pr.1.radius * 1000) ++ ['_'] ++ ts ++
            (match tx with
              | some t => if t ≠ [] then ['_'] ++ t else []
              | none => [])) ++
          csep ++ pr.2 ++ (if pr.1.is_center then ['*'] else []) ++
          cnumSep ++ natChars (k + 1))) ∧
    (∀ n, FullTree n tree →
      (create_string_list cfg tree ts tx).length =
        Finset.sum (Finset.range (n + 1)) (fun i => 7 ^ i)) ∧
    (∀ (store : Chars → Option (List Chars)) (tcc : Chars)
        (lng lat radius : ℚ) (out : PlanOut), radius > 750 →
      process_req_plan_location store cfg ts tcc fullData lng lat radius []
        tx = .ok out →
      out.saved_plan = some (create_string_list cfg
        (cover_circle_with_seven_circles (GPoint.base lng lat)
          (radius / 1000) 2 false) ts tx ++ [endOfPlan])) := by
  have hroot : ∀ p ∈ [(tree, (['1'] : Chars))], p.2 ≠ ([] : Chars) := by
    intro p hp
    simp only [List.mem_singleton] at hp
    subst hp
    simp
  obtain ⟨hlen, hget⟩ := cslAux_spec cfg ts tx
    (queueMeasure [(tree, (['1'] : Chars))]) [(tree, ['1'])] 0 le_rfl hroot
  have hq : queueMeasure [(tree, (['1'] : Chars))] = count_circles tree := by
    simp [queueMeasure]
  refine ⟨by rw [create_string_list, hlen, hq], ?_, ?_, ?_⟩
  · intro k pr hpr
    have hk : k < queueMeasure [(tree, (['1'] : Chars))] := by
      have hlt := (List.get?_eq_some.mp hpr).1
      rw [bfsList, bfsPairs_length (queueMeasure [(tree, (['1'] : Chars))])
        _ le_rfl] at hlt
      exact hlt
    obtain ⟨pr', hb, hc⟩ := hget k hk
    rw [bfsList] at hpr
    rw [hpr] at hb
    injection hb with hbe
    subst hbe
    have hord : 0 + k + 1 = k + 1 := by omega
    rw [create_string_list, hc, hord, descriptorString_eq]
  · intro n hfull
    rw [create_string_list, hlen, hq]
    exact count_circles_of_full n tree hfull
  · intro store tcc lng lat radius out hr hok
    rw [process_req_plan_location] at hok
    simp only [if_pos (And.intro rfl rfl), if_pos hr] at hok
    cases hok
    rfl

/-- Witness for C2 on the single-node tree at `(0,0)` with radius 1 km,
type tag `"t"`, no text search, and (for the caller part) a radius-1000m
full-data location request. -/
theorem C2_create_string_list_witness :
    (bfsList ⟨GPoint.base 0 0, 1, [], false⟩).get? 0 =
      some (⟨GPoint.base 0 0, 1, [], false⟩, ['1']) ∧
    (create_string_list ⟨fun _ => [], fun _ => []⟩
        ⟨GPoint.base 0 0, 1, [], false⟩ ['t'] none).get? 0 =
      some ((([] : Chars) ++ ['_'] ++ [] ++ ['_'] ++ ['t'] ++ []) ++ csep ++
        ['1'] ++ [] ++ cnumSep ++ natChars 1) ∧
    (FullTree 0 ⟨GPoint.base 0 0, 1, [], false⟩ ∧
      (create_string_list ⟨fun _ => [], fun _ => []⟩
        ⟨GPoint.base 0 0, 1, [], false⟩ ['t'] none).length =
        Finset.sum (Finset.range 1) (fun i => 7 ^ i)) ∧
    ((1000 : ℚ) > 750 ∧
      ∃ out, process_req_plan_location (fun _ => none)
          ⟨fun _ => [], fun _ => []⟩ ['t'] ['n'] fullData 0 0 1000 [] none =
          .ok out ∧
        out.saved_plan = some (create_string_list ⟨fun _ => [], fun _ => []⟩
          (cover_circle_with_seven_circles (GPoint.base 0 0) (1000 / 1000) 2
            false) ['t'] none ++ [endOfPlan])) := by
  have hA : (bfsList (⟨GPoint.base 0 0, 1, [], false⟩ : Circle)).get? 0 =
      some (⟨GPoint.base 0 0, 1, [], false⟩, ['1']) := by
    rw [bfsList, bfsPairs]
    rfl
  have hfull : FullTree 0 (⟨GPoint.base 0 0, 1, [], false⟩ : Circle) :=
    FullTree.leaf _ rfl
  refine ⟨hA, ?_, ⟨hfull, ?_⟩, by norm_num, ?_⟩
  · exact (C2_create_string_list ⟨fun _ => [], fun _ => []⟩
      ⟨GPoint.base 0 0, 1, [], false⟩ ['t'] none).2.1 0
      (⟨GPoint.base 0 0, 1, [], false⟩, ['1']) hA
  · exact (C2_create_string_list ⟨fun _ => [], fun _ => []⟩
      ⟨GPoint.base 0 0, 1, [], false⟩ ['t'] none).2.2.1 0 hfull
  · exact ⟨_, rfl, (C2_create_string_list ⟨fun _ => [], fun _ => []⟩
      ⟨GPoint.base 0 0, 1, [], false⟩ ['t'] none).2.2.2 (fun _ => none)
      ['n'] 0 0 1000 _ (by norm_num) rfl⟩

/-!  Lemmas about the string primitives. -/

theorem breakOn?_decomp (sep : Chars) :
    ∀ (s a r : Chars), breakOn? sep s = some (a, r) → s = a ++ sep ++ r := by
  intro s
  induction s with
  | nil => intro a r h; simp [breakOn?] at h
  | cons c t ih =>
    intro a r h
    rw [breakOn?] at h
    by_cases hp : List.isPrefixOf sep (c :: t)
    · simp only [hp, if_pos, Option.some.injEq, Prod.mk.injEq] at h
      obtain ⟨ha, hr⟩ := h
      subst ha
      subst hr
      have hpre := List.isPrefixOf_iff_prefix.mp hp
      have := List.prefix_iff_eq_take.mp hpre
      conv_lhs => rw [← List.take_append_drop sep.length (c :: t)]
      rw [← this]
      simp
    · rw [if_neg hp] at h
      cases hbr : breakOn? sep t with
      | none => rw [hbr] at h; simp at h
      | some p =>
        rw [hbr] at h
        simp only [Option.map_some', Option.some.injEq, Prod.mk.injEq] at h
        obtain ⟨ha, hr⟩ := h
        subst ha
        subst hr
        have := ih p.1 p.2 hbr
        rw [this]
        simp

theorem breakOn?_some_le (sep s a r : Chars)
    (h : breakOn? sep s = some (a, r)) : sep.length ≤ s.length := by
  have := breakOn?_decomp sep s a r h
  subst this
  simp
  omega

theorem breakOn?_append_some (sep : Chars) :
    ∀ (s u a r : Chars), breakOn? sep s = some (a, r) →
      breakOn? sep (s ++ u) = some (a, r ++ u) := by
  intro s
  induction s with
  | nil => intro u a r h; simp [breakOn?] at h
  | cons c t ih =>
    intro u a r h
    rw [breakOn?] at h
    by_cases hp : List.isPrefixOf sep (c :: t)
    · simp only [hp, if_pos, Option.some.injEq, Prod.mk.injEq] at h
      obtain ⟨ha, hr⟩ := h
      subst ha
      subst hr
      have hpre := List.isPrefixOf_iff_prefix.mp hp
      have hple : sep.length ≤ (c :: t).length := hpre.length_le
      have hp2 : List.isPrefixOf sep (c :: (t ++ u)) :=
        List.isPrefixOf_iff_prefix.mpr
          (hpre.trans (List.cons_append c t u ▸ List.prefix_append (c :: t) u))
      rw [List.cons_append, breakOn?, if_pos hp2,
        show (c :: (t ++ u)) = (c :: t) ++ u from (List.cons_append c t u).symm,
        List.drop_append_of_le_length hple]
    · rw [if_neg hp] at h
      cases hbr : breakOn? sep t with
      | none => rw [hbr] at h; simp at h
      | some p =>
        rw [hbr] at h
        simp only [Option.map_some', Option.some.injEq, Prod.mk.injEq] at h
        obtain ⟨ha, hr⟩ := h
        subst ha
        subst hr
        have hlent : sep.length ≤ t.length := breakOn?_some_le sep t p.1 p.2 hbr
        have hp2 : ¬ List.isPrefixOf sep (c :: (t ++ u)) = true := by
          intro hyes
          apply hp
          apply List.isPrefixOf_iff_prefix.mpr
          have hyes' := List.isPrefixOf_iff_prefix.mp hyes
          have hle : sep.length ≤ (c :: t).length := by
            simp only [List.length_cons]
            omega
          exact List.prefix_of_prefix_length_le
            (List.cons_append c t u ▸ hyes')
            (List.prefix_append (c :: t) u)
            (by simpa using hle)
        rw [List.cons_append, breakOn?, if_neg hp2, ih u p.1 p.2 hbr]
        rfl

theorem pySplit_eq_none (sep : Chars) (hsep : sep ≠ []) (s : Chars)
    (h : breakOn? sep s = none) : pySplit sep hsep s = [s] := by
  rw [pySplit]
  split
  · rfl
  · next a r heq =>
    rw [h] at heq
    cases heq

theorem pySplit_eq_some (sep : Chars) (hsep : sep ≠ []) (s a r : Chars)
    (h : breakOn? sep s = some (a, r)) :
    pySplit sep hsep s = a :: pySplit sep hsep r := by
  rw [pySplit]
  split
  · next heq =>
    rw [h] at heq
    cases heq
  · next a' r' heq =>
    rw [h] at heq
    injection heq with heq
    injection heq with h1 h2
    subst h1
    subst h2
    rfl

theorem pySplit_ne_nil (sep : Chars) (hsep : sep ≠ []) (s : Chars) :
    pySplit sep hsep s ≠ [] := by
  cases h : breakOn? sep s with
  | none => rw [pySplit_eq_none sep hsep s h]; simp
  | some p => rw [pySplit_eq_some sep hsep s p.1 p.2 (by rw [h])]; simp

theorem pySplit_get0 (sep : Chars) (hsep : sep ≠ []) (s : Chars) :
    (pySplit sep hsep s).get? 0 = some (match breakOn? sep s with
      | none => s
      | some p => p.1) := by
  cases h : breakOn? sep s with
  | none => rw [pySplit_eq_none sep hsep s h]; rfl
  | some p => rw [pySplit_eq_some sep hsep s p.1 p.2 (by rw [h])]; rfl

theorem pySplit_get1 (sep : Chars) (hsep : sep ≠ []) (s a r : Chars)
    (h : breakOn? sep s = some (a, r)) :
    (pySplit sep hsep s).get? 1 = (pySplit sep hsep r).get? 0 := by
  rw [pySplit_eq_some sep hsep s a r h]
  rfl

theorem pySplit_get1_none (sep : Chars) (hsep : sep ≠ []) (s : Chars)
    (h : breakOn? sep s = none) : (pySplit sep hsep s).get? 1 = none := by
  rw [pySplit_eq_none sep hsep s h]
  rfl

theorem breakOn?_csep_skip_none :
    ∀ s : Chars, breakOn? csep s = none →
      breakOn? csep (s ++ skipSuf) = none := by
  intro s
  induction s with
  | nil =>
    intro _
    decide
  | cons c t ih =>
    intro h
    rw [breakOn?] at h
    by_cases hp : List.isPrefixOf csep (c :: t)
    · simp [hp] at h
    · rw [if_neg hp] at h
      have hbt : breakOn? csep t = none := by
        cases hbr : breakOn? csep t with
        | none => rfl
        | some p => rw [hbr] at h; simp at h
      have hih := ih hbt
      have hp2 : ¬ List.isPrefixOf csep (c :: (t ++ skipSuf)) = true := by
        intro hyes
        have hyes' := List.isPrefixOf_iff_prefix.mp hyes
        have hself : (c :: t) <+: (c :: (t ++ skipSuf)) := by
          rw [← List.cons_append]
          exact List.prefix_append (c :: t) skipSuf
        by_cases hle : csep.length ≤ (c :: t).length
        · exact hp (List.isPrefixOf_iff_prefix.mpr
            (List.prefix_of_prefix_length_le hyes' hself hle))
        · push_neg at hle
          have hct : (c :: t) <+: csep :=
            List.prefix_of_prefix_length_le hself hyes' (by omega)
          have hdecomp : csep = (c :: t) ++ csep.drop (c :: t).length := by
            conv_lhs => rw [← List.take_append_drop (c :: t).length csep]
            congr 1
            exact (List.prefix_iff_eq_take.mp hct).symm
          have hvpre : csep.drop (c :: t).length <+: skipSuf := by
            rw [hdecomp] at hyes'
            rw [← List.cons_append] at hyes'
            exact (List.prefix_append_right_inj (c :: t)).mp hyes'
          have hk1 : 1 ≤ (c :: t).length := by simp
          have hk8 : (c :: t).length < 8 := by
            have : csep.length = 8 := by decide
            omega
          have hall : ∀ k, k < 8 → 1 ≤ k → ¬ (csep.drop k <+: skipSuf) := by
            decide
          exact hall (c :: t).length hk8 hk1 hvpre
      rw [List.cons_append, breakOn?, if_neg hp2, hih]
      rfl

theorem takeWhile_append_skip :
    ∀ t : Chars, (t ++ skipSuf).takeWhile (fun c => c != '_') =
      t.takeWhile (fun c => c != '_') := by
  intro t
  induction t with
  | nil => decide
  | cons c t ih =>
    by_cases hc : (c != '_') = true
    · rw [List.cons_append, List.takeWhile_cons, List.takeWhile_cons, hc, ih]
    · rw [List.cons_append, List.takeWhile_cons, List.takeWhile_cons]
      simp only [Bool.not_eq_true] at hc
      rw [hc]
      simp

theorem breakOn?_singleton (ch : Char) :
    ∀ t : Chars, breakOn? [ch] t =
      if ch ∈ t then some (t.takeWhile (fun c => c != ch),
        (t.dropWhile (fun c => c != ch)).tail) else none := by
  intro t
  induction t with
  | nil => simp [breakOn?]
  | cons c t ih =>
    rw [breakOn?]
    have hpre : List.isPrefixOf [ch] (c :: t) = (ch == c) := by
      simp [List.isPrefixOf]
    rw [hpre]
    by_cases hc : ch = c
    · subst hc
      simp [List.takeWhile_cons, List.dropWhile_cons]
    · have hbe : (ch == c) = false := by
        simp [hc]
      rw [hbe]
      simp only [Bool.false_eq_true, if_false]
      rw [ih]
      have hmem : (ch ∈ c :: t) = (ch ∈ t) := by
        simp [List.mem_cons, hc]
      by_cases hm : ch ∈ t
      · simp only [hm, if_pos, List.mem_cons, hc, false_or]
        rw [List.takeWhile_cons, List.dropWhile_cons]
        have : (c != ch) = true := by
          simp [Ne.symm hc]
        simp [this]
      · simp only [hm, if_neg, List.mem_cons, hc, false_or, Option.map_none']
        simp [hm]

theorem all_takeWhile_eq_self (p : Char → Bool) :
    ∀ t : Chars, (∀ c ∈ t, p c = true) → t.takeWhile p = t := by
  intro t
  induction t with
  | nil => intro _; rfl
  | cons c t ih =>
    intro h
    rw [List.takeWhile_cons, h c (List.mem_cons_self c t),
      ih (fun x hx => h x (List.mem_cons_of_mem c hx))]
    simp

theorem rawPos_eq_takeWhile (t : Chars) :
    rawPos t = t.takeWhile (fun c => c != '_') := by
  unfold rawPos
  by_cases hm : '_' ∈ t
  · rw [pySplit_eq_some ['_'] (by decide) t (t.takeWhile (fun c => c != '_'))
      ((t.dropWhile (fun c => c != '_')).tail)
      (by rw [breakOn?_singleton]; simp [hm])]
    rfl
  · rw [pySplit_eq_none ['_'] (by decide) t
      (by rw [breakOn?_singleton]; simp [hm])]
    simp only [List.headD_cons]
    exact (all_takeWhile_eq_self _ t (fun c hc => by
      simp only [bne_iff_ne, ne_eq]
      intro hceq
      exact hm (hceq ▸ hc))).symm

theorem circleSuffix?_none (s : Chars) (h : breakOn? csep s = none) :
    circleSuffix? s = none :=
  pySplit_get1_none csep (by decide) s h

theorem circleSuffix?_eq (s a r : Chars) (h : breakOn? csep s = some (a, r)) :
    circleSuffix? s = some (match breakOn? csep r with
      | none => r
      | some p => p.1) := by
  unfold circleSuffix? splitSecond?
  rw [pySplit_get1 csep (by decide) s a r h, pySplit_get0]

theorem pySplit_und_get0 (t : Chars) :
    (pySplit ['_'] (by decide) t).get? 0 = some (rawPos t) := by
  rw [pySplit_get0]
  congr 1
  unfold rawPos
  cases h : breakOn? ['_'] t with
  | none => rw [pySplit_eq_none ['_'] (by decide) t h]; rfl
  | some p =>
    rw [pySplit_eq_some ['_'] (by decide) t p.1 p.2 (by rw [h])]
    rfl

theorem circle_number_eq_posOf (s t : Chars) (h : circleSuffix? s = some t) :
    circle_number_of? s = some (posOf t) := by
  unfold circle_number_of?
  have hs : splitSecond? csep (by decide) s = some t := h
  rw [hs]
  simp only [Option.bind_eq_bind, Option.some_bind]
  rw [pySplit_und_get0 t]
  rfl

theorem posOf_append_skip (t : Chars) : posOf (t ++ skipSuf) = posOf t := by
  unfold posOf
  rw [rawPos_eq_takeWhile, rawPos_eq_takeWhile, takeWhile_append_skip]

theorem circleSuffix?_append_skip (s t : Chars)
    (h : circleSuffix? s = some t) :
    circleSuffix? (s ++ skipSuf) = some t ∨
      circleSuffix? (s ++ skipSuf) = some (t ++ skipSuf) := by
  cases hb : breakOn? csep s with
  | none => rw [circleSuffix?_none s hb] at h; cases h
  | some p =>
    have hb' : breakOn? csep s = some (p.1, p.2) := by rw [hb]
    have happ := breakOn?_append_some csep s skipSuf p.1 p.2 hb'
    rw [circleSuffix?_eq s p.1 p.2 hb'] at h
    cases hr : breakOn? csep p.2 with
    | none =>
      rw [hr] at h
      injection h with h
      subst h
      right
      rw [circleSuffix?_eq (s ++ skipSuf) p.1 (p.2 ++ skipSuf)
        (by rw [happ]), breakOn?_csep_skip_none p.2 hr]
    | some q =>
      rw [hr] at h
      injection h with h
      subst h
      left
      have hr' : breakOn? csep p.2 = some (q.1, q.2) := by rw [hr]
      have happ2 := breakOn?_append_some csep p.2 skipSuf q.1 q.2 hr'
      rw [circleSuffix?_eq (s ++ skipSuf) p.1 (p.2 ++ skipSuf)
        (by rw [happ]), happ2]

theorem circle_number_append_skip (s num : Chars)
    (h : circle_number_of? s = some num) :
    circle_number_of? (s ++ skipSuf) = some num := by
  cases ht : circleSuffix? s with
  | none =>
    unfold circle_number_of? at h
    have : splitSecond? csep (by decide) s = none := ht
    rw [this] at h
    cases h
  | some t =>
    rw [circle_number_eq_posOf s t ht] at h
    injection h with h
    subst h
    rcases circleSuffix?_append_skip s t ht with h2 | h2
    · exact circle_number_eq_posOf (s ++ skipSuf) t h2
    · rw [circle_number_eq_posOf (s ++ skipSuf) (t ++ skipSuf) h2,
        posOf_append_skip]

theorem is_subcircle?_eval (num s t : Chars) (h : circleSuffix? s = some t) :
    is_subcircle? num s =
      some ((csep ++ num ++ ['.']).isPrefixOf (csep ++ t)) := by
  unfold is_subcircle?
  have hs : splitSecond? csep (by decide) s = some t := h
  rw [hs]
  rfl

theorem is_subcircle?_none (num s : Chars) (h : circleSuffix? s = none) :
    is_subcircle? num s = none := by
  unfold is_subcircle?
  have hs : splitSecond? csep (by decide) s = none := h
  rw [hs]
  rfl

theorem mapOpt_length {α β : Type} (f : α → Option β) :
    ∀ (l : List α) (l' : List β), mapOpt f l = some l' →
      l'.length = l.length := by
  intro l
  induction l with
  | nil =>
    intro l' h
    rw [mapOpt] at h
    injection h with h
    subst h
    rfl
  | cons x xs ih =>
    intro l' h
    rw [mapOpt] at h
    cases hf : f x with
    | none => rw [hf] at h; cases h
    | some y =>
      rw [hf] at h
      cases hm : mapOpt f xs with
      | none => rw [hm] at h; cases h
      | some ys =>
        rw [hm] at h
        injection h with h
        subst h
        simp [ih ys hm]

theorem mapOpt_get? {α β : Type} (f : α → Option β) :
    ∀ (l : List α) (l' : List β), mapOpt f l = some l' →
      ∀ (k : ℕ) (x : α), l.get? k = some x →
        ∃ y, l'.get? k = some y ∧ f x = some y := by
  intro l
  induction l with
  | nil =>
    intro l' h k x hx
    cases hx
  | cons a xs ih =>
    intro l' h k x hx
    rw [mapOpt] at h
    cases hf : f a with
    | none => rw [hf] at h; cases h
    | some y =>
      rw [hf] at h
      cases hm : mapOpt f xs with
      | none => rw [hm] at h; cases h
      | some ys =>
        rw [hm] at h
        injection h with h
        subst h
        match k with
        | 0 =>
          rw [List.get?_cons_zero] at hx
          injection hx with hx
          subst hx
          exact ⟨y, rfl, hf⟩
        | k + 1 =>
          rw [List.get?_cons_succ] at hx
          exact ih ys hm k x hx

theorem mapOpt_id_of {α : Type} (f : α → Option α) :
    ∀ l : List α, (∀ x ∈ l, f x = some x) → mapOpt f l = some l := by
  intro l
  induction l with
  | nil => intro _; rfl
  | cons x xs ih =>
    intro h
    rw [mapOpt, h x (List.mem_cons_self x xs),
      ih (fun a ha => h a (List.mem_cons_of_mem x ha))]

theorem mapOpt_mem {α β : Type} (f : α → Option β) :
    ∀ (l : List α) (l' : List β), mapOpt f l = some l' →
      ∀ y ∈ l', ∃ x ∈ l, f x = some y := by
  intro l
  induction l with
  | nil =>
    intro l' h y hy
    rw [mapOpt] at h
    injection h with h
    subst h
    cases hy
  | cons a xs ih =>
    intro l' h y hy
    rw [mapOpt] at h
    cases hf : f a with
    | none => rw [hf] at h; cases h
    | some b =>
      rw [hf] at h
      cases hm : mapOpt f xs with
      | none => rw [hm] at h; cases h
      | some ys =>
        rw [hm] at h
        injection h with h
        subst h
        rcases List.mem_cons.mp hy with rfl | hy2
        · exact ⟨a, List.mem_cons_self a xs, hf⟩
        · obtain ⟨x, hx, hfx⟩ := ih ys hm y hy2
          exact ⟨x, List.mem_cons_of_mem a hx, hfx⟩

theorem add_skip_eq (plan : List Chars) (i : ℕ) (cur num last : Chars)
    (modified : List Chars) (h1 : plan.get? i = some cur)
    (h2 : circle_number_of? cur = some num)
    (h3 : plan.getLast? = some last)
    (h4 : mapOpt (skipStep num) plan.dropLast = some modified) :
    add_skip_to_subcircles plan i = some (modified ++ [last]) := by
  unfold add_skip_to_subcircles
  rw [h1]
  simp only [Option.bind_eq_bind, Option.some_bind]
  rw [h2]
  simp only [Option.some_bind]
  rw [h3]
  simp only [Option.some_bind]
  rw [h4]
  rfl

theorem add_skip_inv (plan : List Chars) (i : ℕ) (out : List Chars)
    (h : add_skip_to_subcircles plan i = some out) :
    ∃ cur num last modified, plan.get? i = some cur ∧
      circle_number_of? cur = some num ∧ plan.getLast? = some last ∧
      mapOpt (skipStep num) plan.dropLast = some modified ∧
      out = modified ++ [last] := by
  unfold add_skip_to_subcircles at h
  simp only [Option.bind_eq_bind, Option.pure_def, Option.bind_eq_some,
    Option.some.injEq] at h
  obtain ⟨cur, h1, num, h2, last, h3, modified, h4, h5⟩ := h
  exact ⟨cur, num, last, modified, h1, h2, h3, h4, h5.symm⟩

theorem is_subcircle?_some_suffix (num x : Chars) (b : Bool)
    (h : is_subcircle? num x = some b) : ∃ t, circleSuffix? x = some t := by
  cases ht : circleSuffix? x with
  | none => rw [is_subcircle?_none num x ht] at h; cases h
  | some t => exact ⟨t, rfl⟩

/-- C5: rectification is idempotent.  Whenever
`add_skip_to_subcircles plan i` succeeds (Python raises no exception),
applying it again at the same index to its own output returns the
output unchanged: an entry already ending in `"_skip"` is never marked
a second time, so the suffix is never duplicated. -/
theorem C5_rectify_idempotent (plan : List Chars) (i : ℕ)
    (out : List Chars) (h : add_skip_to_subcircles plan i = some out) :
    add_skip_to_subcircles out i = some out := by
  obtain ⟨cur, num, last, modified, h1, h2, h3, h4, rfl⟩ :=
    add_skip_inv plan i out h
  have hlen : modified.length = plan.dropLast.length :=
    mapOpt_length (skipStep num) plan.dropLast modified h4
  have hplen : i < plan.length := by
    by_contra hc
    push_neg at hc
    rw [List.get?_eq_getElem?, List.getElem?_eq_none hc] at h1
    cases h1
  have hdl : (modified ++ [last]).dropLast = modified := List.dropLast_concat
  have hgl : (modified ++ [last]).getLast? = some last := by simp
  -- the current entry of the output: the current plan entry, possibly
  -- with "_skip" appended
  have hcur' : ∃ cur', (modified ++ [last]).get? i = some cur' ∧
      (cur' = cur ∨ cur' = cur ++ skipSuf) := by
    by_cases hi : i < modified.length
    · have hdli : plan.dropLast.get? i = some cur := by
        rw [List.get?_eq_getElem?, List.getElem?_dropLast,
          if_pos (by rw [← List.length_dropLast]; omega),
          ← List.get?_eq_getElem?]
        exact h1
      obtain ⟨y, hy, hfy⟩ := mapOpt_get? (skipStep num) plan.dropLast
        modified h4 i cur hdli
      refine ⟨y, ?_, ?_⟩
      · rw [List.get?_append hi]
        exact hy
      · unfold skipStep at hfy
        cases hb : is_subcircle? num cur with
        | none => rw [hb] at hfy; cases hfy
        | some b =>
          rw [hb] at hfy
          simp only [Option.map_some', Option.some.injEq] at hfy
          subst hfy
          by_cases hcond : (b && !(skipSuf.isSuffixOf cur)) = true
          · rw [if_pos hcond]
            exact Or.inr rfl
          · rw [if_neg hcond]
            exact Or.inl rfl
    · have hieq : i = modified.length := by
        have : plan.dropLast.length = plan.length - 1 := List.length_dropLast plan
        omega
      subst hieq
      refine ⟨last, List.get?_concat_length modified last, Or.inl ?_⟩
      have hlast : plan.get? (plan.length - 1) = some last := by
        rw [List.get?_eq_getElem?, ← List.getLast?_eq_getElem?]
        exact h3
      have hml : modified.length = plan.length - 1 := by
        rw [hlen, List.length_dropLast]
      rw [hml] at h1
      rw [h1] at hlast
      injection hlast with h1e
      exact h1e.symm
  obtain ⟨cur', hget', hcases⟩ := hcur'
  have hnum' : circle_number_of? cur' = some num := by
    rcases hcases with rfl | rfl
    · exact h2
    · exact circle_number_append_skip cur num h2
  have hmap' : mapOpt (skipStep num) modified = some modified := by
    apply mapOpt_id_of
    intro e he
    obtain ⟨x, hx, hfx⟩ := mapOpt_mem (skipStep num) plan.dropLast modified
      h4 e he
    unfold skipStep at hfx
    cases hb : is_subcircle? num x with
    | none => rw [hb] at hfx; cases hfx
    | some b =>
      rw [hb] at hfx
      simp only [Option.map_some', Option.some.injEq] at hfx
      by_cases hcond : (b && !(skipSuf.isSuffixOf x)) = true
      · rw [if_pos hcond] at hfx
        subst hfx
        obtain ⟨t, ht⟩ := is_subcircle?_some_suffix num x b hb
        have hsome : ∃ t', circleSuffix? (x ++ skipSuf) = some t' := by
          rcases circleSuffix?_append_skip x t ht with h' | h'
          · exact ⟨t, h'⟩
          · exact ⟨t ++ skipSuf, h'⟩
        obtain ⟨t', ht'⟩ := hsome
        unfold skipStep
        rw [is_subcircle?_eval num (x ++ skipSuf) t' ht']
        have hsuffixed : skipSuf.isSuffixOf (x ++ skipSuf) = true :=
          List.isSuffixOf_iff_suffix.mpr (List.suffix_append x skipSuf)
        rw [hsuffixed]
        simp
      · rw [if_neg hcond] at hfx
        subst hfx
        unfold skipStep
        rw [hb]
        simp only [Option.map_some', Option.some.injEq]
        rw [if_neg hcond]
  have := add_skip_eq (modified ++ [last]) i cur' num last modified hget'
    hnum' hgl (by rw [hdl]; exact hmap')
  exact this

theorem posOf_eq (t : Chars) :
    posOf t = (t.takeWhile (fun c => c != '_')).filter (fun ch => ch != '*') := by
  unfold posOf
  rw [rawPos_eq_takeWhile]

/-- Witness for C5 on the three-entry plan
`["_circle=1", "_circle=1.1", "end of search plan"]` rectified at index
0: the second entry is skip-marked once and a second rectification
changes nothing. -/
theorem C5_rectify_idempotent_witness :
    add_skip_to_subcircles
        [['_', 'c', 'i', 'r', 'c', 'l', 'e', '=', '1'],
         ['_', 'c', 'i', 'r', 'c', 'l', 'e', '=', '1', '.', '1'],
         endOfPlan] 0 =
      some [['_', 'c', 'i', 'r', 'c', 'l', 'e', '=', '1'],
            ['_', 'c', 'i', 'r', 'c', 'l', 'e', '=', '1', '.', '1'] ++ skipSuf,
            endOfPlan] ∧
    add_skip_to_subcircles
        [['_', 'c', 'i', 'r', 'c', 'l', 'e', '=', '1'],
         ['_', 'c', 'i', 'r', 'c', 'l', 'e', '=', '1', '.', '1'] ++ skipSuf,
         endOfPlan] 0 =
      some [['_', 'c', 'i', 'r', 'c', 'l', 'e', '=', '1'],
            ['_', 'c', 'i', 'r', 'c', 'l', 'e', '=', '1', '.', '1'] ++ skipSuf,
            endOfPlan] := by
  have hsuf0 : circleSuffix? ['_', 'c', 'i', 'r', 'c', 'l', 'e', '=', '1'] =
      some ['1'] := by
    rw [circleSuffix?_eq _ [] ['1'] (by decide)]
    decide
  have hsuf1 : circleSuffix?
      ['_', 'c', 'i', 'r', 'c', 'l', 'e', '=', '1', '.', '1'] =
      some ['1', '.', '1'] := by
    rw [circleSuffix?_eq _ [] ['1', '.', '1'] (by decide)]
    decide
  have hnum : circle_number_of? ['_', 'c', 'i', 'r', 'c', 'l', 'e', '=', '1'] =
      some ['1'] := by
    rw [circle_number_eq_posOf _ ['1'] hsuf0, posOf_eq]
    decide
  have hstep0 : skipStep ['1'] ['_', 'c', 'i', 'r', 'c', 'l', 'e', '=', '1'] =
      some ['_', 'c', 'i', 'r', 'c', 'l', 'e', '=', '1'] := by
    unfold skipStep
    rw [is_subcircle?_eval ['1'] _ ['1'] hsuf0]
    rfl
  have hstep1 : skipStep ['1']
      ['_', 'c', 'i', 'r', 'c', 'l', 'e', '=', '1', '.', '1'] =
      some (['_', 'c', 'i', 'r', 'c', 'l', 'e', '=', '1', '.', '1'] ++
        skipSuf) := by
    unfold skipStep
    rw [is_subcircle?_eval ['1'] _ ['1', '.', '1'] hsuf1]
    rfl
  have hmap : mapOpt (skipStep ['1'])
      [['_', 'c', 'i', 'r', 'c', 'l', 'e', '=', '1'],
       ['_', 'c', 'i', 'r', 'c', 'l', 'e', '=', '1', '.', '1']] =
      some [['_', 'c', 'i', 'r', 'c', 'l', 'e', '=', '1'],
        ['_', 'c', 'i', 'r', 'c', 'l', 'e', '=', '1', '.', '1'] ++
          skipSuf] := by
    rw [mapOpt, hstep0, mapOpt, hstep1, mapOpt]
  have h1 := add_skip_eq
    [['_', 'c', 'i', 'r', 'c', 'l', 'e', '=', '1'],
     ['_', 'c', 'i', 'r', 'c', 'l', 'e', '=', '1', '.', '1'],
     endOfPlan] 0
    ['_', 'c', 'i', 'r', 'c', 'l', 'e', '=', '1'] ['1'] endOfPlan
    [['_', 'c', 'i', 'r', 'c', 'l', 'e', '=', '1'],
     ['_', 'c', 'i', 'r', 'c', 'l', 'e', '=', '1', '.', '1'] ++ skipSuf]
    rfl hnum rfl hmap
  have h1' : add_skip_to_subcircles
      [['_', 'c', 'i', 'r', 'c', 'l', 'e', '=', '1'],
       ['_', 'c', 'i', 'r', 'c', 'l', 'e', '=', '1', '.', '1'],
       endOfPlan] 0 =
      some [['_', 'c', 'i', 'r', 'c', 'l', 'e', '=', '1'],
        ['_', 'c', 'i', 'r', 'c', 'l', 'e', '=', '1', '.', '1'] ++ skipSuf,
        endOfPlan] := by
    rw [h1]
    rfl
  exact ⟨h1', C5_rectify_idempotent _ 0 _ h1'⟩

theorem dropWhile_head_false (p : Char → Bool) :
    ∀ (l : Chars) (c : Char) (cs : Chars), l.dropWhile p = c :: cs →
      p c = false := by
  intro l
  induction l with
  | nil => intro c cs h; cases h
  | cons a l ih =>
    intro c cs h
    rw [List.dropWhile_cons] at h
    by_cases hp : p a = true
    · rw [if_pos hp] at h
      exact ih c cs h
    · rw [if_neg hp] at h
      injection h with h1 h2
      subst h1
      simpa using hp

theorem posOf_no_star (t : Chars) : ∀ c ∈ posOf t, (c != '*') = true := by
  intro c hc
  rw [posOf_eq] at hc
  exact (List.mem_filter.mp hc).2

theorem drop_takeWhile_length (p : Char → Bool) :
    ∀ l : Chars, l.drop (l.takeWhile p).length = l.dropWhile p := by
  intro l
  induction l with
  | nil => rfl
  | cons a l ih =>
    rw [List.takeWhile_cons, List.dropWhile_cons]
    by_cases hp : p a = true
    · rw [if_pos hp, if_pos hp, List.length_cons, List.drop_succ_cons, ih]
    · rw [if_neg hp, if_neg hp]
      rfl

theorem posOf_no_und (t : Chars) : ∀ c ∈ posOf t, (c != '_') = true := by
  intro c hc
  rw [posOf_eq] at hc
  have hmem := (List.mem_filter.mp hc).1
  have h2 := List.mem_takeWhile_imp hmem
  exact h2

theorem head_mem_of_prefix (v : Chars) (c : Char) (l : Chars)
    (hne : v ≠ []) (h : v <+: c :: l) : v.head hne = c := by
  cases v with
  | nil => exact absurd rfl hne
  | cons a v' =>
    obtain ⟨u, hu⟩ := h
    rw [List.cons_append] at hu
    injection hu

/-- The bridge between the code's raw-suffix prefix test in
`is_subcircle` and the claim's dotted-prefix matching on hierarchical
positions: for a marker-free, underscore-free circle number `num` and a
well-formed entry suffix `t` whose raw position field is the position
with at most a trailing `*`, the code's
`startswith(f"_circle={num}.")` test on the raw suffix equals strict
dotted descendance of `posOf t` from `num`. -/
theorem subcircle_test_eq (num t : Chars)
    (hstar : ∀ c ∈ num, (c != '*') = true)
    (hund : ∀ c ∈ num, (c != '_') = true)
    (hwf : rawPos t = posOf t ∨ rawPos t = posOf t ++ ['*']) :
    (csep ++ num ++ ['.']).isPrefixOf (csep ++ t) =
      isStrictDesc num (posOf t) := by
  rw [Bool.eq_iff_iff]
  unfold isStrictDesc
  rw [List.isPrefixOf_iff_prefix, List.isPrefixOf_iff_prefix]
  have hsplit : csep ++ num ++ ['.'] = csep ++ (num ++ ['.']) := by
    rw [List.append_assoc]
  rw [hsplit, List.prefix_append_right_inj]
  set pat := num ++ ['.'] with hpat
  set pos := posOf t with hpos
  have hraw : rawPos t <+: t := by
    rw [rawPos_eq_takeWhile]
    exact List.takeWhile_prefix _
  have ht : t = rawPos t ++ t.drop (rawPos t).length := by
    conv_lhs => rw [← List.take_append_drop (rawPos t).length t]
    congr 1
    exact (List.prefix_iff_eq_take.mp hraw).symm
  have hrest : ∀ c cs, t.drop (rawPos t).length = c :: cs → c = '_' := by
    intro c cs hc
    have hdw : t.drop (rawPos t).length = t.dropWhile (fun x => x != '_') := by
      rw [rawPos_eq_takeWhile]
      exact drop_takeWhile_length _ t
    rw [hdw] at hc
    have := dropWhile_head_false (fun x => x != '_') t c cs hc
    simpa using this
  have hcharpat : ∀ c ∈ pat, c ≠ '*' ∧ c ≠ '_' := by
    intro c hc
    rw [hpat] at hc
    rcases List.mem_append.mp hc with hcn | hcd
    · exact ⟨by simpa using hstar c hcn, by simpa using hund c hcn⟩
    · simp only [List.mem_singleton] at hcd
      subst hcd
      exact ⟨by decide, by decide⟩
  constructor
  · -- code test implies dotted descendance of the position
    intro hpre
    by_contra hnot
    have hposet : pos <+: t := by
      rcases hwf with hw | hw
      · rw [← hw]
        exact hraw
      · calc pos <+: pos ++ ['*'] := List.prefix_append pos ['*']
          _ = rawPos t := hw.symm
          _ <+: t := hraw
    by_cases hle : pat.length ≤ pos.length
    · exact hnot (List.prefix_of_prefix_length_le hpre hposet hle)
    · push_neg at hle
      have hppp : pos <+: pat :=
        List.prefix_of_prefix_length_le hposet hpre (by omega)
      have hdecomp : pat = pos ++ pat.drop pos.length := by
        conv_lhs => rw [← List.take_append_drop pos.length pat]
        congr 1
        exact (List.prefix_iff_eq_take.mp hppp).symm
      have hvne : pat.drop pos.length ≠ [] := by
        intro hv
        have := List.length_drop pos.length pat
        rw [hv] at this
        simp at this
        omega
      have hvmem : ∀ c, (pat.drop pos.length).head hvne = c → c ∈ pat := by
        intro c hc
        have hmem : (pat.drop pos.length).head hvne ∈ pat.drop pos.length :=
          List.head_mem hvne
        rw [hc] at hmem
        exact (List.drop_suffix pos.length pat).subset hmem
      rcases hwf with hw | hw
      · -- raw position has no marker: the rest starts with an underscore
        have htt : t = pos ++ t.drop (rawPos t).length := by
          conv_lhs => rw [ht]
          rw [hw]
        rw [htt, hdecomp] at hpre
        have hvp : pat.drop pos.length <+: t.drop (rawPos t).length :=
          (List.prefix_append_right_inj pos).mp hpre
        match hv : t.drop (rawPos t).length, hvp with
        | [], hvp =>
          exact hvne (List.prefix_nil.mp hvp)
        | c :: cs, hvp =>
          have hc : c = '_' := hrest c cs hv
          subst hc
          have hhead := head_mem_of_prefix (pat.drop pos.length) '_' cs
            hvne hvp
          have := (hcharpat _ (hvmem _ hhead)).2
          exact this rfl
      · -- raw position carries the trailing center marker
        have htt : t = pos ++ ('*' :: t.drop (rawPos t).length) := by
          conv_lhs => rw [ht]
          rw [hw]
          simp
        rw [htt, hdecomp] at hpre
        have hvp : pat.drop pos.length <+: '*' :: t.drop (rawPos t).length :=
          (List.prefix_append_right_inj pos).mp hpre
        have hhead := head_mem_of_prefix (pat.drop pos.length) '*'
          (t.drop (rawPos t).length) hvne hvp
        have := (hcharpat _ (hvmem _ hhead)).1
        exact this rfl
  · -- dotted descendance implies the code test
    intro hpre
    have hposet : pos <+: t := by
      rcases hwf with hw | hw
      · rw [← hw]
        exact hraw
      · calc pos <+: pos ++ ['*'] := List.prefix_append pos ['*']
          _ = rawPos t := hw.symm
          _ <+: t := hraw
    rcases hposet with ⟨u, hu⟩
    rcases hpre with ⟨w, hw2⟩
    refine ⟨w ++ u, ?_⟩
    rw [← hu, ← hw2]
    simp [hpat, List.append_assoc]

theorem gnnsAux_spec :
    ∀ (l : List Chars) (j : ℕ),
      (∀ r, gnnsAux l j = some r → j ≤ r ∧ r - j < l.length ∧
        (∃ s, l.get? (r - j) = some s ∧ eligible s) ∧
        ∀ m, m < r - j → ∀ s, l.get? m = some s → ¬ eligible s) ∧
      (gnnsAux l j = none → ∀ m s, l.get? m = some s → ¬ eligible s) := by
  intro l
  induction l with
  | nil =>
    intro j
    constructor
    · intro r h
      cases h
    · intro _ m s hms
      cases hms
  | cons s0 rest ih =>
    intro j
    constructor
    · intro r h
      rw [gnnsAux] at h
      by_cases hc : skipSuf.isSuffixOf s0 = false ∧ s0 ≠ endOfPlan
      · rw [if_pos hc] at h
        injection h with h
        subst h
        refine ⟨le_refl j, by simp, ⟨s0, by simp, hc⟩, ?_⟩
        intro m hm
        omega
      · rw [if_neg hc] at h
        obtain ⟨hjr, hlt, ⟨s', hs', helig⟩, hmin⟩ := (ih (j + 1)).1 r h
        refine ⟨by omega, ?_, ⟨s', ?_, helig⟩, ?_⟩
        · simp only [List.length_cons]
          omega
        · have : r - j = (r - (j + 1)) + 1 := by omega
          rw [this, List.get?_cons_succ]
          exact hs'
        · intro m hm s hms
          match m with
          | 0 =>
            rw [List.get?_cons_zero] at hms
            injection hms with hms
            subst hms
            exact hc
          | m + 1 =>
            rw [List.get?_cons_succ] at hms
            exact hmin m (by omega) s hms
    · intro h m s hms
      rw [gnnsAux] at h
      by_cases hc : skipSuf.isSuffixOf s0 = false ∧ s0 ≠ endOfPlan
      · rw [if_pos hc] at h
        cases h
      · rw [if_neg hc] at h
        match m with
        | 0 =>
          rw [List.get?_cons_zero] at hms
          injection hms with hms
          subst hms
          exact hc
        | m + 1 =>
          rw [List.get?_cons_succ] at hms
          exact (ih (j + 1)).2 h m s hms

theorem isStrictDesc_self (p : Chars) : isStrictDesc p p = false := by
  unfold isStrictDesc
  rw [Bool.eq_false_iff]
  intro h
  have := (List.isPrefixOf_iff_prefix.mp h).length_le
  simp at this

theorem circle_number_some_suffix (s num : Chars)
    (h : circle_number_of? s = some num) :
    ∃ t, circleSuffix? s = some t := by
  cases ht : circleSuffix? s with
  | none =>
    unfold circle_number_of? at h
    have hs : splitSecond? csep (by decide) s = none := ht
    rw [hs] at h
    cases h
  | some t => exact ⟨t, rfl⟩

theorem entryWF_disj (x tx : Chars) (htx : circleSuffix? x = some tx)
    (hwfx : entryWF x = true) :
    rawPos tx = posOf tx ∨ rawPos tx = posOf tx ++ ['*'] := by
  unfold entryWF at hwfx
  rw [htx] at hwfx
  simp only [Bool.or_eq_true, beq_iff_eq] at hwfx
  exact hwfx

/-- C4: for every plan and current index at which rectification
succeeds, over entries whose position field is well formed,
`add_skip_to_subcircles` appends `"_skip"` to exactly those entries of
`plan[:-1]` whose hierarchical position is a strict descendant of the
current entry's position under dotted-prefix matching (`1.3` matches
`1.3.2` but not `1.30`) and which are not already marked; it never
marks the current entry itself, any entry outside that dotted-prefix
subtree, or the final sentinel entry; and `get_next_non_skip_index`
returns the smallest index strictly greater than the current index
whose entry is neither the sentinel `"end of search plan"` nor
`"_skip"`-marked, or `none` (Python `""`) if no such entry remains. -/
theorem C4_rectify_marks_descendants (plan : List Chars) (i : ℕ)
    (out : List Chars) (hrun : add_skip_to_subcircles plan i = some out)
    (hwf : ∀ s ∈ plan.dropLast, entryWF s = true) :
    out.length = plan.length ∧
    out.getLast? = plan.getLast? ∧
    out.get? i = plan.get? i ∧
    (∀ cur tcur, plan.get? i = some cur → circleSuffix? cur = some tcur →
      ∀ j x tx, j < plan.length - 1 → plan.get? j = some x →
        circleSuffix? x = some tx →
        out.get? j = some (if (isStrictDesc (posOf tcur) (posOf tx) &&
          !(skipSuf.isSuffixOf x)) = true then x ++ skipSuf else x)) ∧
    (∀ r, get_next_non_skip_index out i = some r → i < r ∧ r < out.length ∧
      (∃ s, out.get? r = some s ∧ eligible s) ∧
      ∀ m s, i < m → m < r → out.get? m = some s → ¬ eligible s) ∧
    (get_next_non_skip_index out i = none →
      ∀ m s, i < m → m < out.length → out.get? m = some s → ¬ eligible s) := by
  obtain ⟨cur0, num, last, modified, h1, h2, h3, h4, rfl⟩ :=
    add_skip_inv plan i out hrun
  have hlen : modified.length = plan.dropLast.length :=
    mapOpt_length (skipStep num) plan.dropLast modified h4
  have hplanne : plan ≠ [] := by
    intro hnil
    rw [hnil] at h3
    cases h3
  have hplen : 0 < plan.length := List.length_pos.mpr hplanne
  have hdrop : plan.dropLast.length = plan.length - 1 :=
    List.length_dropLast plan
  have hilt : i < plan.length := by
    by_contra hc
    push_neg at hc
    rw [List.get?_eq_getElem?, List.getElem?_eq_none hc] at h1
    cases h1
  have houtlen : (modified ++ [last]).length = plan.length := by
    simp only [List.length_append, List.length_singleton, hlen, hdrop]
    omega
  have hlast' : plan.get? (plan.length - 1) = plan.getLast? := by
    rw [List.get?_eq_getElem?, List.getLast?_eq_getElem?]
  -- the marking clause, proved first and reused for the current entry
  have hmark : ∀ cur tcur, plan.get? i = some cur →
      circleSuffix? cur = some tcur →
      ∀ j x tx, j < plan.length - 1 → plan.get? j = some x →
        circleSuffix? x = some tx →
        (modified ++ [last]).get? j =
          some (if (isStrictDesc (posOf tcur) (posOf tx) &&
            !(skipSuf.isSuffixOf x)) = true then x ++ skipSuf else x) := by
    intro cur tcur hcur htcur j x tx hj hx htx
    have hcur0 : cur = cur0 := Option.some.inj (hcur.symm.trans h1)
    subst hcur0
    have hnum : num = posOf tcur :=
      Option.some.inj
        (h2.symm.trans (circle_number_eq_posOf cur tcur htcur))
    have hdlj : plan.dropLast.get? j = some x := by
      rw [List.get?_eq_getElem?, List.getElem?_dropLast, if_pos hj,
        ← List.get?_eq_getElem?]
      exact hx
    obtain ⟨y, hy, hfy⟩ := mapOpt_get? (skipStep num) plan.dropLast modified
      h4 j x hdlj
    have hwfx : entryWF x = true :=
      hwf x (List.get?_mem hdlj)
    have hb : is_subcircle? num x =
        some ((csep ++ num ++ ['.']).isPrefixOf (csep ++ tx)) :=
      is_subcircle?_eval num x tx htx
    unfold skipStep at hfy
    rw [hb] at hfy
    simp only [Option.map_some', Option.some.injEq] at hfy
    subst hfy
    have heq : (csep ++ num ++ ['.']).isPrefixOf (csep ++ tx) =
        isStrictDesc num (posOf tx) := by
      apply subcircle_test_eq num tx
      · rw [hnum]
        exact posOf_no_star tcur
      · rw [hnum]
        exact posOf_no_und tcur
      · exact entryWF_disj x tx htx hwfx
    rw [List.get?_append (by omega), hy, heq, hnum]
  refine ⟨houtlen, by simp [h3], ?_, hmark, ?_, ?_⟩
  · -- the current entry is never marked
    by_cases hi : i < plan.length - 1
    · obtain ⟨tcur, htcur⟩ := circle_number_some_suffix cur0 num h2
      have := hmark cur0 tcur h1 htcur i cur0 tcur hi h1 htcur
      rw [this, isStrictDesc_self, h1]
      simp
    · have hieq : i = plan.length - 1 := by omega
      subst hieq
      have hml : modified.length = plan.length - 1 := by omega
      rw [hlast', h3, ← hml, List.get?_concat_length]
  · -- get_next_non_skip_index, found case
    intro r hr
    unfold get_next_non_skip_index at hr
    obtain ⟨hjr, hlt, ⟨s, hs, helig⟩, hmin⟩ :=
      (gnnsAux_spec ((modified ++ [last]).drop (i + 1)) (i + 1)).1 r hr
    rw [List.length_drop] at hlt
    rw [List.get?_drop] at hs
    have hidx : i + 1 + (r - (i + 1)) = r := by omega
    rw [hidx] at hs
    refine ⟨by omega, by omega, ⟨s, hs, helig⟩, ?_⟩
    intro m s' him hmr hms
    have hm' : ((modified ++ [last]).drop (i + 1)).get? (m - (i + 1)) =
        some s' := by
      rw [List.get?_drop]
      have hidx2 : i + 1 + (m - (i + 1)) = m := by omega
      rw [hidx2]
      exact hms
    exact hmin (m - (i + 1)) (by omega) s' hm'
  · -- get_next_non_skip_index, exhausted case
    intro hr m s' him hmlen hms
    unfold get_next_non_skip_index at hr
    have hm' : ((modified ++ [last]).drop (i + 1)).get? (m - (i + 1)) =
        some s' := by
      rw [List.get?_drop]
      have hidx2 : i + 1 + (m - (i + 1)) = m := by omega
      rw [hidx2]
      exact hms
    exact (gnnsAux_spec ((modified ++ [last]).drop (i + 1)) (i + 1)).2 hr
      (m - (i + 1)) s' hm'

/-- Witness for C4 on the plan with positions `{1, 1.1, 1.2, 2}` and the
sentinel, rectified at index 0: the `1.1` and `1.2` entries are marked,
the current entry, the `2` entry and the sentinel are untouched, and the
next non-skip index is 3. -/
theorem C4_rectify_marks_descendants_witness :
    ∃ out, add_skip_to_subcircles
        [['_', 'c', 'i', 'r', 'c', 'l', 'e', '=', '1'],
         ['_', 'c', 'i', 'r', 'c', 'l', 'e', '=', '1', '.', '1'],
         ['_', 'c', 'i', 'r', 'c', 'l', 'e', '=', '1', '.', '2'],
         ['_', 'c', 'i', 'r', 'c', 'l', 'e', '=', '2'],
         endOfPlan] 0 = some out ∧
      out.length = 5 ∧
      out.getLast? = some endOfPlan ∧
      out.get? 0 = some ['_', 'c', 'i', 'r', 'c', 'l', 'e', '=', '1'] ∧
      out.get? 1 =
        some (['_', 'c', 'i', 'r', 'c', 'l', 'e', '=', '1', '.', '1'] ++
          skipSuf) ∧
      out.get? 3 = some ['_', 'c', 'i', 'r', 'c', 'l', 'e', '=', '2'] ∧
      get_next_non_skip_index out 0 = some 3 := by
  have hsuf0 : circleSuffix? ['_', 'c', 'i', 'r', 'c', 'l', 'e', '=', '1'] =
      some ['1'] := by
    rw [circleSuffix?_eq _ [] ['1'] (by decide)]
    decide
  have hsuf1 : circleSuffix?
      ['_', 'c', 'i', 'r', 'c', 'l', 'e', '=', '1', '.', '1'] =
      some ['1', '.', '1'] := by
    rw [circleSuffix?_eq _ [] ['1', '.', '1'] (by decide)]
    decide
  have hsuf2 : circleSuffix?
      ['_', 'c', 'i', 'r', 'c', 'l', 'e', '=', '1', '.', '2'] =
      some ['1', '.', '2'] := by
    rw [circleSuffix?_eq _ [] ['1', '.', '2'] (by decide)]
    decide
  have hsuf3 : circleSuffix? ['_', 'c', 'i', 'r', 'c', 'l', 'e', '=', '2'] =
      some ['2'] := by
    rw [circleSuffix?_eq _ [] ['2'] (by decide)]
    decide
  have hnum : circle_number_of? ['_', 'c', 'i', 'r', 'c', 'l', 'e', '=', '1'] =
      some ['1'] := by
    rw [circle_number_eq_posOf _ ['1'] hsuf0, posOf_eq]
    decide
  have hstep0 : skipStep ['1'] ['_', 'c', 'i', 'r', 'c', 'l', 'e', '=', '1'] =
      some ['_', 'c', 'i', 'r', 'c', 'l', 'e', '=', '1'] := by
    unfold skipStep
    rw [is_subcircle?_eval ['1'] _ ['1'] hsuf0]
    rfl
  have hstep1 : skipStep ['1']
      ['_', 'c', 'i', 'r', 'c', 'l', 'e', '=', '1', '.', '1'] =
      some (['_', 'c', 'i', 'r', 'c', 'l', 'e', '=', '1', '.', '1'] ++
        skipSuf) := by
    unfold skipStep
    rw [is_subcircle?_eval ['1'] _ ['1', '.', '1'] hsuf1]
    rfl
  have hstep2 : skipStep ['1']
      ['_', 'c', 'i', 'r', 'c', 'l', 'e', '=', '1', '.', '2'] =
      some (['_', 'c', 'i', 'r', 'c', 'l', 'e', '=', '1', '.', '2'] ++
        skipSuf) := by
    unfold skipStep
    rw [is_subcircle?_eval ['1'] _ ['1', '.', '2'] hsuf2]
    rfl
  have hstep3 : skipStep ['1'] ['_', 'c', 'i', 'r', 'c', 'l', 'e', '=', '2'] =
      some ['_', 'c', 'i', 'r', 'c', 'l', 'e', '=', '2'] := by
    unfold skipStep
    rw [is_subcircle?_eval ['1'] _ ['2'] hsuf3]
    rfl
  have hmap : mapOpt (skipStep ['1'])
      [['_', 'c', 'i', 'r', 'c', 'l', 'e', '=', '1'],
       ['_', 'c', 'i', 'r', 'c', 'l', 'e', '=', '1', '.', '1'],
       ['_', 'c', 'i', 'r', 'c', 'l', 'e', '=', '1', '.', '2'],
       ['_', 'c', 'i', 'r', 'c', 'l', 'e', '=', '2']] =
      some [['_', 'c', 'i', 'r', 'c', 'l', 'e', '=', '1'],
        ['_', 'c', 'i', 'r', 'c', 'l', 'e', '=', '1', '.', '1'] ++ skipSuf,
        ['_', 'c', 'i', 'r', 'c', 'l', 'e', '=', '1', '.', '2'] ++ skipSuf,
        ['_', 'c', 'i', 'r', 'c', 'l', 'e', '=', '2']] := by
    rw [mapOpt, hstep0, mapOpt, hstep1, mapOpt, hstep2, mapOpt, hstep3,
      mapOpt]
  have hrun := add_skip_eq
    [['_', 'c', 'i', 'r', 'c', 'l', 'e', '=', '1'],
     ['_', 'c', 'i', 'r', 'c', 'l', 'e', '=', '1', '.', '1'],
     ['_', 'c', 'i', 'r', 'c', 'l', 'e', '=', '1', '.', '2'],
     ['_', 'c', 'i', 'r', 'c', 'l', 'e', '=', '2'],
     endOfPlan] 0
    ['_', 'c', 'i', 'r', 'c', 'l', 'e', '=', '1'] ['1'] endOfPlan
    [['_', 'c', 'i', 'r', 'c', 'l', 'e', '=', '1'],
     ['_', 'c', 'i', 'r', 'c', 'l', 'e', '=', '1', '.', '1'] ++ skipSuf,
     ['_', 'c', 'i', 'r', 'c', 'l', 'e', '=', '1', '.', '2'] ++ skipSuf,
     ['_', 'c', 'i', 'r', 'c', 'l', 'e', '=', '2']]
    rfl hnum rfl hmap
  have hwf : ∀ s ∈ ([['_', 'c', 'i', 'r', 'c', 'l', 'e', '=', '1'],
      ['_', 'c', 'i', 'r', 'c', 'l', 'e', '=', '1', '.', '1'],
      ['_', 'c', 'i', 'r', 'c', 'l', 'e', '=', '1', '.', '2'],
      ['_', 'c', 'i', 'r', 'c', 'l', 'e', '=', '2'],
      endOfPlan] : List Chars).dropLast, entryWF s = true := by
    intro s hs
    simp only [List.dropLast_cons₂, List.dropLast_single, List.mem_cons,
      List.not_mem_nil, or_false] at hs
    rcases hs with rfl | rfl | rfl | rfl
    · unfold entryWF
      rw [hsuf0]
      show (rawPos ['1'] == posOf ['1'] ||
        rawPos ['1'] == posOf ['1'] ++ ['*']) = true
      rw [rawPos_eq_takeWhile, posOf_eq]
      decide
    · unfold entryWF
      rw [hsuf1]
      show (rawPos ['1', '.', '1'] == posOf ['1', '.', '1'] ||
        rawPos ['1', '.', '1'] == posOf ['1', '.', '1'] ++ ['*']) = true
      rw [rawPos_eq_takeWhile, posOf_eq]
      decide
    · unfold entryWF
      rw [hsuf2]
      show (rawPos ['1', '.', '2'] == posOf ['1', '.', '2'] ||
        rawPos ['1', '.', '2'] == posOf ['1', '.', '2'] ++ ['*']) = true
      rw [rawPos_eq_takeWhile, posOf_eq]
      decide
    · unfold entryWF
      rw [hsuf3]
      show (rawPos ['2'] == posOf ['2'] ||
        rawPos ['2'] == posOf ['2'] ++ ['*']) = true
      rw [rawPos_eq_takeWhile, posOf_eq]
      decide
  obtain ⟨hl, hgl, hci, hmk, -, -⟩ := C4_rectify_marks_descendants _ 0 _
    hrun hwf
  refine ⟨_, hrun, by rw [hl]; rfl, by rw [hgl]; rfl, by rw [hci]; rfl,
    ?_, ?_, ?_⟩
  · have hv := hmk _ ['1'] rfl hsuf0 1 _ ['1', '.', '1'] (by norm_num) rfl
      hsuf1
    rw [hv]
    have hcond : (isStrictDesc (posOf ['1']) (posOf ['1', '.', '1']) &&
        !(skipSuf.isSuffixOf
          ['_', 'c', 'i', 'r', 'c', 'l', 'e', '=', '1', '.', '1'])) =
        true := by
      rw [posOf_eq, posOf_eq]
      decide
    rw [hcond]
    rfl
  · have hv := hmk _ ['1'] rfl hsuf0 3 _ ['2'] (by norm_num) rfl hsuf3
    rw [hv]
    have hcond : (isStrictDesc (posOf ['1']) (posOf ['2']) &&
        !(skipSuf.isSuffixOf ['_', 'c', 'i', 'r', 'c', 'l', 'e', '=', '2'])) =
        false := by
      rw [posOf_eq, posOf_eq]
      decide
    rw [hcond]
    rfl
  · decide

theorem mkToken_ne_nil (p : Chars) (i : ℕ) : mkToken p i ≠ [] := by
  unfold mkToken ptokSep
  simp

/-- C3 counterexample: at the start of a full-data fetch the token is
minted at index 1 unconditionally.  For a location request of radius
1000 m (`> 750`) the coverage tree is a single leaf, the persisted plan
is one descriptor plus the sentinel, and `process_req_plan` still
returns the non-empty token `page_token=plan_n@#$1` whose zero-based
index 1 points exactly at the sentinel — the claimed `""`-when-exhausted
behaviour does not exist in the start branch. -/
theorem C3_counterexample :
    ∃ out plan,
      process_req_plan_location (fun _ => none) ⟨fun _ => [], fun _ => []⟩
        ['t'] ['n'] fullData 0 0 1000 [] none = .ok out ∧
      out.next_page_token = mkToken (planPre ++ ['n']) 1 ∧
      out.next_page_token ≠ [] ∧
      out.saved_plan = some plan ∧
      plan.get? 1 = some endOfPlan := by
  refine ⟨_, _, rfl, rfl, mkToken_ne_nil (planPre ++ ['n']) 1, rfl, ?_⟩
  have hcov := cover_eq_stop (GPoint.base 0 0) (1000 / 1000) 2 false
    (Or.inr ⟨rfl, by norm_num⟩)
  rw [hcov]
  have hroot : ∀ p ∈ [((⟨GPoint.base 0 0, 1000 / 1000, [], false⟩ : Circle),
      (['1'] : Chars))], p.2 ≠ ([] : Chars) := by
    intro p hp
    simp only [List.mem_singleton] at hp
    subst hp
    simp
  have hlen1 : (create_string_list ⟨fun _ => [], fun _ => []⟩
      ⟨GPoint.base 0 0, 1000 / 1000, [], false⟩ ['t'] none).length = 1 := by
    rw [create_string_list, (cslAux_spec ⟨fun _ => [], fun _ => []⟩ ['t'] none
      (queueMeasure [(⟨GPoint.base 0 0, 1000 / 1000, [], false⟩, ['1'])])
      [(⟨GPoint.base 0 0, 1000 / 1000, [], false⟩, ['1'])] 0 le_rfl
      hroot).1]
    simp [queueMeasure, count_circles_eq]
  rw [show (1 : ℕ) = (create_string_list ⟨fun _ => [], fun _ => []⟩
      ⟨GPoint.base 0 0, 1000 / 1000, [], false⟩ ['t'] none).length
    from hlen1.symm]
  exact List.get?_concat_length _ endOfPlan

/-- C3 (amended): every non-empty token has the form
`page_token=<planName>@#$<index>`, but the three lifecycle steps differ
from the claim in the start branch: (a) at the start of a full-data
fetch the token is always minted with index 1, even when that index
already points at the sentinel (there is no `""`-when-exhausted check);
(b) on resume at index `i` it is re-minted with index `i+1`, or `""`
exactly when `plan[i+1]` is the sentinel — skip marks are not consulted
on this path; (c) only after rectification does the token carry the
next non-sentinel non-skip index, or become `""` when none remains. -/
theorem C3_amended_token_lifecycle :
    (∀ (store : Chars → Option (List Chars)) (cfg : RenderCfg)
        (ts tcc : Chars) (lng lat radius : ℚ) (tx : Option Chars)
        (out : PlanOut), radius > 750 →
      process_req_plan_location store cfg ts tcc fullData lng lat radius []
        tx = .ok out →
      out.next_page_token = mkToken out.plan_name 1 ∧
        out.next_page_token ≠ []) ∧
    (∀ (store : Chars → Option (List Chars)) (cfg : RenderCfg)
        (ts tcc : Chars) (lng lat radius : ℚ) (tx : Option Chars)
        (token : Chars) (out : PlanOut), token ≠ [] →
      process_req_plan_location store cfg ts tcc fullData lng lat radius
        token tx = .ok out →
      ∃ plan nxt, store out.plan_name = some plan ∧
        (∃ cur, plan.get? out.current_plan_index = some cur) ∧
        plan.get? (out.current_plan_index + 1) = some nxt ∧
        out.next_page_token = (if nxt = endOfPlan then [] else
          mkToken out.plan_name (out.current_plan_index + 1))) ∧
    (∀ (tok : Chars) (plan : List Chars) (i : ℕ) (p' : List Chars),
      add_skip_to_subcircles plan i = some p' →
      (get_next_non_skip_index p' i = none →
        token_after_rectify tok plan i = some []) ∧
      (∀ k, get_next_non_skip_index p' i = some k →
        (i < k ∧ (∃ s, p'.get? k = some s ∧ eligible s) ∧
          ∀ m s, i < m → m < k → p'.get? m = some s → ¬ eligible s) ∧
        token_after_rectify tok plan i =
          some ((pySplit atSep (by decide) tok).headD [] ++ atSep ++
            natChars k))) := by
  refine ⟨?_, ?_, ?_⟩
  · intro store cfg ts tcc lng lat radius tx out hr hp
    rw [process_req_plan_location,
      if_pos (⟨rfl, rfl⟩ : ([] : Chars) = [] ∧ fullData = fullData),
      if_pos hr] at hp
    injection hp with hp
    subst hp
    exact ⟨rfl, mkToken_ne_nil _ 1⟩
  · intro store cfg ts tcc lng lat radius tx token out htok hp
    rw [process_req_plan_location,
      if_neg (fun hand => htok hand.1), if_pos htok] at hp
    cases hsp1 : pySplit atSep (by decide) token with
    | nil => simp only [hsp1] at hp; cases hp
    | cons left rest1 =>
      cases rest1 with
      | nil => simp only [hsp1] at hp; cases hp
      | cons idxs rest2 =>
        cases rest2 with
        | cons c cs => simp only [hsp1] at hp; cases hp
        | nil =>
          simp only [hsp1] at hp
          cases hsp2 : pySplit ptokSep (by decide) left with
          | nil => simp only [hsp2] at hp; cases hp
          | cons u rest3 =>
            cases rest3 with
            | nil => simp only [hsp2] at hp; cases hp
            | cons name rest4 =>
              cases rest4 with
              | cons c cs => simp only [hsp2] at hp; cases hp
              | nil =>
                simp only [hsp2] at hp
                cases hpn : parseNat? idxs with
                | none => simp only [hpn] at hp; cases hp
                | some idx =>
                  simp only [hpn] at hp
                  cases hst : store name with
                  | none => simp only [hst] at hp; cases hp
                  | some plan =>
                    simp only [hst] at hp
                    cases hg1 : plan.get? idx with
                    | none => simp only [hg1] at hp; cases hp
                    | some cur =>
                      simp only [hg1] at hp
                      cases hg2 : plan.get? (idx + 1) with
                      | none => simp only [hg2] at hp; cases hp
                      | some nxt =>
                        simp only [hg2, Except.ok.injEq] at hp
                        subst hp
                        exact ⟨plan, nxt, hst, ⟨cur, hg1⟩, hg2, rfl⟩
  · intro tok plan i p' hadd
    have hrect : rectify_plan plan i =
        some (p', get_next_non_skip_index p' i) := by
      unfold rectify_plan
      rw [hadd]
      rfl
    constructor
    · intro hnone
      unfold token_after_rectify
      rw [hrect]
      simp only [Option.bind_eq_bind, Option.some_bind]
      rw [hnone]
      rfl
    · intro k hk
      constructor
      · unfold get_next_non_skip_index at hk
        obtain ⟨hjr, hlt, ⟨s, hs, helig⟩, hmin⟩ :=
          (gnnsAux_spec (p'.drop (i + 1)) (i + 1)).1 k hk
        rw [List.length_drop] at hlt
        rw [List.get?_drop] at hs
        have hidx : i + 1 + (k - (i + 1)) = k := by omega
        rw [hidx] at hs
        refine ⟨by omega, ⟨s, hs, helig⟩, ?_⟩
        intro m s' him hmk hms
        have hm' : (p'.drop (i + 1)).get? (m - (i + 1)) = some s' := by
          rw [List.get?_drop]
          have hidx2 : i + 1 + (m - (i + 1)) = m := by omega
          rw [hidx2]
          exact hms
        exact hmin (m - (i + 1)) (by omega) s' hm'
      · unfold token_after_rectify
        rw [hrect]
        simp only [Option.bind_eq_bind, Option.some_bind]
        rw [hk]
        rfl

theorem C3_amended_token_lifecycle_witness :
    (∃ out : PlanOut,
      process_req_plan_location (fun _ => none) ⟨fun _ => [], fun _ => []⟩
        ['t'] ['n'] fullData 0 0 1000 [] none = .ok out ∧
      out.next_page_token = mkToken out.plan_name 1 ∧
      out.next_page_token ≠ []) ∧
    (∃ out : PlanOut, ∃ plan : List Chars, ∃ nxt : Chars,
      process_req_plan_location
        (fun n => if n = (['p'] : Chars) then
          some [(['x'] : Chars), ['x'], ['x'], ['x'], endOfPlan] else none)
        ⟨fun _ => [], fun _ => []⟩ ['t'] ['n'] fullData 0 0 1000
        (mkToken ['p'] 3) none = .ok out ∧
      (if out.plan_name = (['p'] : Chars) then
          some [(['x'] : Chars), ['x'], ['x'], ['x'], endOfPlan] else none) =
        some plan ∧
      (∃ cur, plan.get? out.current_plan_index = some cur) ∧
      plan.get? (out.current_plan_index + 1) = some nxt ∧
      out.next_page_token = (if nxt = endOfPlan then [] else
        mkToken out.plan_name (out.current_plan_index + 1))) ∧
    (∃ p' : List Chars,
      add_skip_to_subcircles
        [['_', 'c', 'i', 'r', 'c', 'l', 'e', '=', '1'], endOfPlan] 0 =
        some p' ∧
      get_next_non_skip_index p' 0 = none ∧
      token_after_rectify (mkToken ['p'] 3)
        [['_', 'c', 'i', 'r', 'c', 'l', 'e', '=', '1'], endOfPlan] 0 =
        some []) := by
  refine ⟨⟨_, rfl, ?_⟩, ?_, ?_⟩
  · exact C3_amended_token_lifecycle.1 (fun _ => none)
      ⟨fun _ => [], fun _ => []⟩ ['t'] ['n'] 0 0 1000 none _
      (by norm_num) rfl
  · have hb1 : breakOn? atSep (mkToken ['p'] 3) =
        some (ptokSep ++ ['p'], ['3']) := by decide
    have hb2 : breakOn? atSep ['3'] = none := by decide
    have hb3 : breakOn? ptokSep (ptokSep ++ ['p']) = some ([], ['p']) := by
      decide
    have hb4 : breakOn? ptokSep ['p'] = none := by decide
    have hsp1 := pySplit_eq_some atSep (by decide) _ _ _ hb1
    rw [pySplit_eq_none atSep (by decide) _ hb2] at hsp1
    have hsp2 := pySplit_eq_some ptokSep (by decide) _ _ _ hb3
    rw [pySplit_eq_none ptokSep (by decide) _ hb4] at hsp2
    have hp : process_req_plan_location
        (fun n => if n = (['p'] : Chars) then
          some [(['x'] : Chars), ['x'], ['x'], ['x'], endOfPlan] else none)
        ⟨fun _ => [], fun _ => []⟩ ['t'] ['n'] fullData 0 0 1000
        (mkToken ['p'] 3) none =
        .ok ⟨['p'], [], 3, none⟩ := by
      rw [process_req_plan_location,
        if_neg (fun h => mkToken_ne_nil ['p'] 3 h.1),
        if_pos (mkToken_ne_nil ['p'] 3)]
      simp only [hsp1, hsp2]
      rfl
    obtain ⟨plan, nxt, h1, h2, h3, h4⟩ := C3_amended_token_lifecycle.2.1
      (fun n => if n = (['p'] : Chars) then
        some [(['x'] : Chars), ['x'], ['x'], ['x'], endOfPlan] else none)
      ⟨fun _ => [], fun _ => []⟩ ['t'] ['n'] 0 0 1000 none
      (mkToken ['p'] 3) _ (mkToken_ne_nil ['p'] 3) hp
    exact ⟨_, plan, nxt, hp, h1, h2, h3, h4⟩
  · have hsuf0 : circleSuffix? ['_', 'c', 'i', 'r', 'c', 'l', 'e', '=', '1'] =
        some ['1'] := by
      rw [circleSuffix?_eq _ [] ['1'] (by decide)]
      decide
    have hnum : circle_number_of?
        ['_', 'c', 'i', 'r', 'c', 'l', 'e', '=', '1'] = some ['1'] := by
      rw [circle_number_eq_posOf _ ['1'] hsuf0, posOf_eq]
      decide
    have hstep0 : skipStep ['1'] ['_', 'c', 'i', 'r', 'c', 'l', 'e', '=', '1'] =
        some ['_', 'c', 'i', 'r', 'c', 'l', 'e', '=', '1'] := by
      unfold skipStep
      rw [is_subcircle?_eval ['1'] _ ['1'] hsuf0]
      rfl
    have hmap : mapOpt (skipStep ['1'])
        [['_', 'c', 'i', 'r', 'c', 'l', 'e', '=', '1']] =
        some [['_', 'c', 'i', 'r', 'c', 'l', 'e', '=', '1']] := by
      rw [mapOpt, hstep0, mapOpt]
    have hadd' := add_skip_eq
      [['_', 'c', 'i', 'r', 'c', 'l', 'e', '=', '1'], endOfPlan] 0
      ['_', 'c', 'i', 'r', 'c', 'l', 'e', '=', '1'] ['1'] endOfPlan
      [['_', 'c', 'i', 'r', 'c', 'l', 'e', '=', '1']]
      rfl hnum rfl hmap
    have hadd : add_skip_to_subcircles
        [['_', 'c', 'i', 'r', 'c', 'l', 'e', '=', '1'], endOfPlan] 0 =
        some [['_', 'c', 'i', 'r', 'c', 'l', 'e', '=', '1'], endOfPlan] := by
      rw [hadd']
      rfl
    have hnone : get_next_non_skip_index
        [['_', 'c', 'i', 'r', 'c', 'l', 'e', '=', '1'], endOfPlan] 0 =
        none := by decide
    exact ⟨_, hadd, hnone,
      (C3_amended_token_lifecycle.2.2 (mkToken ['p'] 3)
        [['_', 'c', 'i', 'r', 'c', 'l', 'e', '=', '1'], endOfPlan] 0 _
        hadd).1 hnone⟩

theorem exceptBind_ok {ε α β : Type} (x : Except ε α) (f : α → Except ε β)
    (b : β) (h : (x >>= f) = .ok b) : ∃ a, x = .ok a ∧ f a = .ok b := by
  cases x with
  | error e => cases h
  | ok a => exact ⟨a, rfl, h⟩

theorem fillBuckets_eq (change : List Feature) (cov : ℚ) :
    ∀ ms : List (Coord × Option ℕ),
      (fillBuckets change cov ms).1 = ms.filterMap (fun tm =>
        match change.find? (coordsMatch tm.1), tm.2 with
        | some f, some v => if (v : ℚ) / 60 ≤ cov then some f else none
        | _, _ => none) ∧
      (fillBuckets change cov ms).2.1 = ms.filterMap (fun tm =>
        match change.find? (coordsMatch tm.1), tm.2 with
        | some f, some v => if (v : ℚ) / 60 ≤ cov then none else some f
        | _, _ => none) ∧
      (fillBuckets change cov ms).2.2 = ms.filterMap (fun tm =>
        match change.find? (coordsMatch tm.1), tm.2 with
        | some f, none => some f
        | _, _ => none) := by
  intro ms
  induction ms with
  | nil => exact ⟨rfl, rfl, rfl⟩
  | cons tm rest ih =>
    obtain ⟨t, m⟩ := tm
    obtain ⟨ih1, ih2, ih3⟩ := ih
    rw [fillBuckets]
    cases hf : change.find? (coordsMatch t) with
    | none =>
      simp only [hf, List.filterMap_cons]
      exact ⟨ih1, ih2, ih3⟩
    | some f =>
      cases m with
      | none =>
        simp only [hf, List.filterMap_cons]
        exact ⟨ih1, ih2, by rw [ih3]⟩
      | some v =>
        by_cases hv : (v : ℚ) / 60 ≤ cov
        · simp only [hf, List.filterMap_cons, if_pos hv]
          exact ⟨by rw [ih1], ih2, ih3⟩
        · simp only [hf, List.filterMap_cons, if_neg hv]
          exact ⟨ih1, by rw [ih2], ih3⟩

theorem mapM_minStatic_spec :
    ∀ (rr : List (Coord × List RouteResp)) (ms : List (Coord × Option ℕ)),
      rr.mapM (fun tc =>
        (minStaticAux tc.2 none).map (fun m => (tc.1, m))) = .ok ms →
      ms.length = rr.length ∧ ms.map Prod.fst = rr.map Prod.fst ∧
      ∀ j t resps, rr.get? j = some (t, resps) →
        ∃ m, ms.get? j = some (t, m) ∧ minStaticAux resps none = .ok m := by
  intro rr
  induction rr with
  | nil =>
    intro ms h
    rw [List.mapM_nil] at h
    injection h with h
    subst h
    exact ⟨rfl, rfl, fun j t resps hj => by cases j <;> cases hj⟩
  | cons tc rest ih =>
    intro ms h
    rw [List.mapM_cons] at h
    obtain ⟨a, ha, h⟩ := exceptBind_ok _ _ _ h
    obtain ⟨as, has, h⟩ := exceptBind_ok _ _ _ h
    obtain ⟨hlen, hfst, hget⟩ := ih as has
    injection h with h
    subst h
    obtain ⟨t0, resps0⟩ := tc
    have hmin : ∃ m0, a = (t0, m0) ∧ minStaticAux resps0 none = .ok m0 := by
      cases hms : minStaticAux resps0 none with
      | error e => rw [hms] at ha; cases ha
      | ok m0 =>
        rw [hms] at ha
        injection ha with ha
        exact ⟨m0, ha.symm, rfl⟩
    obtain ⟨m0, ha0, hms0⟩ := hmin
    subst ha0
    refine ⟨by simp [hlen], by simp [hfst], ?_⟩
    intro j t resps hj
    cases j with
    | zero =>
      injection hj with hj
      injection hj with hj1 hj2
      subst hj1
      subst hj2
      exact ⟨m0, rfl, hms0⟩
    | succ j => exact hget j t resps hj

/-- C6: in drive-time mode, each target's 2 nearest based-on points are
computed; a candidate survives the pre-filter exactly when its geodesic
distance is `≤` the estimated distance `11.11 * (cov * 60)` (inclusive,
so a boundary point is kept); the routing oracle is called exactly on
the surviving pairs; each target is classified by the minimum static
duration of its routes into `within` iff `min/60 ≤ cov`, `outside`
otherwise, and `unallocated` exactly when it has no route data (so a
no-route target never lands in within/outside); each bucket becomes an
output layer only if it is non-empty. -/
theorem C6_drive_time (hav geod : Coord → Coord → ℚ)
    (oracle : Coord → Coord → RouteResp) (change based : List Feature)
    (cov : ℚ) (palette : List Chars) (layers : List ZLayer)
    (hok : process_drive_time hav geod oracle change based cov palette =
      .ok layers) :
    ∀ nearest filtered rr,
      nearest = calculate_nearest_points hav (based.map (fun f => f.coords))
        (change.map (fun f => f.coords)) 2 →
      filtered = drive_filtered geod cov nearest →
      rr = route_results oracle filtered →
      estimatedDistance cov = (1111 / 100) * (cov * 60) ∧
      ∃ ms : List (Coord × Option ℕ),
        rr.mapM (fun tc =>
          (minStaticAux tc.2 none).map (fun m => (tc.1, m))) = .ok ms ∧
        (∀ j t cs, nearest.get? j = some (t, cs) →
          filtered.get? j = some (t, cs.filter
            (fun c => decide (geod t c ≤ estimatedDistance cov))) ∧
          ∀ c, c ∈ cs.filter
              (fun c => decide (geod t c ≤ estimatedDistance cov)) ↔
            c ∈ cs ∧ geod t c ≤ estimatedDistance cov) ∧
        (∀ j t cs', filtered.get? j = some (t, cs') →
          rr.get? j = some (t, cs'.map (fun c => oracle t c))) ∧
        (∀ j t resps, rr.get? j = some (t, resps) →
          ∃ m, ms.get? j = some (t, m) ∧ minStaticAux resps none = .ok m) ∧
        (fillBuckets change cov ms).1 = ms.filterMap (fun tm =>
          match change.find? (coordsMatch tm.1), tm.2 with
          | some f, some v => if (v : ℚ) / 60 ≤ cov then some f else none
          | _, _ => none) ∧
        (fillBuckets change cov ms).2.1 = ms.filterMap (fun tm =>
          match change.find? (coordsMatch tm.1), tm.2 with
          | some f, some v => if (v : ℚ) / 60 ≤ cov then none else some f
          | _, _ => none) ∧
        (fillBuckets change cov ms).2.2 = ms.filterMap (fun tm =>
          match change.find? (coordsMatch tm.1), tm.2 with
          | some f, none => some f
          | _, _ => none) ∧
        layers = driveLayers palette (fillBuckets change cov ms).1
          (fillBuckets change cov ms).2.1 (fillBuckets change cov ms).2.2 ∧
        (∀ L ∈ layers, L.features ≠ []) := by
  intro nearest filtered rr hn hfil hrr
  subst hn
  subst hfil
  subst hrr
  rw [process_drive_time] at hok
  obtain ⟨ms, hms, hpure⟩ := exceptBind_ok _ _ _ hok
  injection hpure with hpure
  refine ⟨by rw [estimatedDistance, AVERAGE_SPEED_MPS], ms, hms, ?_, ?_, ?_,
    (fillBuckets_eq change cov ms).1, (fillBuckets_eq change cov ms).2.1,
    (fillBuckets_eq change cov ms).2.2, hpure.symm, ?_⟩
  · intro j t cs hj
    constructor
    · rw [drive_filtered, List.get?_map, hj]
      rfl
    · intro c
      rw [List.mem_filter, decide_eq_true_eq]
  · intro j t cs' hj
    rw [route_results, List.get?_map, hj]
    rfl
  · exact (mapM_minStatic_spec _ ms hms).2.2
  · intro L hL
    rw [← hpure] at hL
    rw [driveLayers] at hL
    have h2 := (List.mem_filter.mp hL).2
    intro hnil
    rw [hnil] at h2
    cases h2

theorem C6_drive_time_witness :
    ∃ layers : List ZLayer,
      process_drive_time (fun _ _ => 0) (fun _ _ => 0)
        (fun _ _ => RouteResp.routeResp [⟨some ['6', '0', 's']⟩])
        [⟨⟨0, 0⟩, []⟩] [⟨⟨0, 0⟩, []⟩] 1 [['#', 'A']] = .ok layers ∧
      ∀ L ∈ layers, L.features ≠ [] := by
  have hok : process_drive_time (fun _ _ => 0) (fun _ _ => 0)
      (fun _ _ => RouteResp.routeResp [⟨some ['6', '0', 's']⟩])
      [⟨⟨0, 0⟩, []⟩] [⟨⟨0, 0⟩, []⟩] 1 [['#', 'A']] =
      .ok [⟨withinTag, ['#', 'A'], [⟨⟨0, 0⟩, []⟩]⟩] := by
    have hss : staticSeconds? ['6', '0', 's'] = some 60 := by decide
    rw [process_drive_time]
    simp only [List.map, calculate_nearest_points, List.mergeSort_singleton]
    norm_num [drive_filtered, route_results, estimatedDistance,
      AVERAGE_SPEED_MPS, minStaticAux, hss, fillBuckets, driveLayers,
      coordsMatch, List.mapM.loop]
    rw [if_neg (by decide : ¬((['6', '0', 's'] : Chars) = []))]
    simp only [Functor.map, Except.map]
    norm_num [List.filter]
  obtain ⟨-, ms, -, -, -, -, -, -, -, -, hne⟩ :=
    C6_drive_time (fun _ _ => 0) (fun _ _ => 0)
      (fun _ _ => RouteResp.routeResp [⟨some ['6', '0', 's']⟩])
      [⟨⟨0, 0⟩, []⟩] [⟨⟨0, 0⟩, []⟩] 1 [['#', 'A']] _ hok _ _ _ rfl rfl rfl
  exact ⟨_, hok, hne⟩

theorem findIdx?_lower {α : Type} (p : α → Bool) :
    ∀ (l : List α) (s k : ℕ), l.findIdx? p s = some k → s ≤ k := by
  intro l
  induction l with
  | nil => intro s k h; rw [List.findIdx?_nil] at h; cases h
  | cons x xs ih =>
    intro s k h
    rw [List.findIdx?_cons] at h
    by_cases hp : p x = true
    · rw [if_pos hp] at h
      injection h with h
      omega
    · rw [if_neg hp] at h
      have := ih (s + 1) k h
      omega

theorem findIdx?_spec {α : Type} (p : α → Bool) :
    ∀ (l : List α) (s i : ℕ),
      l.findIdx? p s = some (s + i) ↔
        (∃ x, l.get? i = some x ∧ p x = true) ∧
        ∀ j x, j < i → l.get? j = some x → p x = false := by
  intro l
  induction l with
  | nil =>
    intro s i
    rw [List.findIdx?_nil]
    constructor
    · intro h; cases h
    · intro ⟨⟨x, hx, _⟩, _⟩; cases hx
  | cons y xs ih =>
    intro s i
    rw [List.findIdx?_cons]
    by_cases hp : p y = true
    · rw [if_pos hp]
      constructor
      · intro h
        injection h with h
        have hi : i = 0 := by omega
        subst hi
        exact ⟨⟨y, rfl, hp⟩, fun j x hj _ => absurd hj (by omega)⟩
      · intro ⟨⟨x, hx, hpx⟩, hmin⟩
        cases i with
        | zero => rfl
        | succ i' =>
          have := hmin 0 y (by omega) rfl
          rw [hp] at this
          cases this
    · rw [if_neg hp]
      cases i with
      | zero =>
        constructor
        · intro h
          have := findIdx?_lower p xs (s + 1) (s + 0) h
          omega
        · intro ⟨⟨x, hx, hpx⟩, _⟩
          injection hx with hx
          subst hx
          rw [hpx] at hp
          cases hp rfl
      | succ i' =>
        have hs : s + (i' + 1) = (s + 1) + i' := by omega
        rw [hs, ih (s + 1) i']
        constructor
        · intro ⟨⟨x, hx, hpx⟩, hmin⟩
          refine ⟨⟨x, hx, hpx⟩, ?_⟩
          intro j z hj hz
          cases j with
          | zero =>
            injection hz with hz
            subst hz
            exact Bool.eq_false_iff.mpr hp
          | succ j' => exact hmin j' z (by omega) hz
        · intro ⟨⟨x, hx, hpx⟩, hmin⟩
          exact ⟨⟨x, hx, hpx⟩, fun j z hj hz => hmin (j + 1) z (by omega) hz⟩

theorem findIdx?_none_spec {α : Type} (p : α → Bool) :
    ∀ (l : List α) (s : ℕ), l.findIdx? p s = none ↔ ∀ x ∈ l, p x = false := by
  intro l
  induction l with
  | nil =>
    intro s
    rw [List.findIdx?_nil]
    exact ⟨fun _ x hx => absurd hx (List.not_mem_nil x), fun _ => rfl⟩
  | cons y xs ih =>
    intro s
    rw [List.findIdx?_cons]
    by_cases hp : p y = true
    · rw [if_pos hp]
      constructor
      · intro h; cases h
      · intro h
        have := h y (List.mem_cons_self y xs)
        rw [hp] at this
        cases this
    · rw [if_neg hp]
      rw [ih (s + 1)]
      constructor
      · intro h x hx
        rcases List.mem_cons.mp hx with hx | hx
        · subst hx
          exact Bool.eq_false_iff.mpr hp
        · exact h x hx
      · intro h x hx
        exact h x (List.mem_cons_of_mem y hx)

theorem bandOf_some_iff (thresholds : List ℚ) (v : ℚ) (i : ℕ) :
    bandOf thresholds (some v) = i ↔
      ((∃ th, thresholds.get? i = some th ∧ v ≤ th) ∧
        ∀ j th, j < i → thresholds.get? j = some th → ¬ v ≤ th) ∨
      (i = thresholds.length ∧ ∀ th ∈ thresholds, ¬ v ≤ th) := by
  rw [bandOf]
  cases hf : thresholds.findIdx? (fun th => decide (v ≤ th)) with
  | none =>
    rw [Option.getD_none]
    have hall := (findIdx?_none_spec _ thresholds 0).mp hf
    constructor
    · intro h
      exact Or.inr ⟨h.symm, fun th hth =>
        of_decide_eq_false (hall th hth)⟩
    · rintro (⟨⟨th, hth, hv⟩, _⟩ | ⟨hlen, _⟩)
      · have hmem := List.get?_mem hth
        have := hall th hmem
        rw [decide_eq_true hv] at this
        cases this
      · exact hlen.symm
  | some k =>
    rw [Option.getD_some]
    have hk := (findIdx?_spec _ thresholds 0 k).mp (by simpa using hf)
    constructor
    · intro h
      subst h
      obtain ⟨⟨x, hx, hpx⟩, hmin⟩ := hk
      refine Or.inl ⟨⟨x, hx, of_decide_eq_true hpx⟩, ?_⟩
      intro j th hj hth
      exact of_decide_eq_false (hmin j th hj hth)
    · rintro (⟨⟨th, hth, hv⟩, hmin⟩ | ⟨hlen, hall⟩)
      · by_contra hne
        obtain ⟨⟨x, hx, hpx⟩, hminK⟩ := hk
        rcases Nat.lt_or_ge k i with hlt | hge
        · exact absurd (of_decide_eq_true hpx) (hmin k x hlt hx)
        · have hki : i < k := lt_of_le_of_ne hge (fun h => hne h.symm)
          have := hminK i th hki hth
          rw [decide_eq_true hv] at this
          cases this
      · obtain ⟨⟨x, hx, hpx⟩, _⟩ := hk
        have := hall x (List.get?_mem hx)
        exact absurd (of_decide_eq_true hpx) this

theorem bandOf_lt (thresholds : List ℚ) (s : Option ℚ) :
    bandOf thresholds s < thresholds.length + 2 := by
  cases s with
  | none => rw [bandOf]; omega
  | some v =>
    rw [bandOf]
    cases hf : thresholds.findIdx? (fun th => decide (v ≤ th)) with
    | none => rw [Option.getD_none]; omega
    | some k =>
      rw [Option.getD_some]
      obtain ⟨⟨x, hx, _⟩, _⟩ :=
        (findIdx?_spec _ thresholds 0 k).mp (by simpa using hf)
      obtain ⟨hlt, -⟩ := List.get?_eq_some.mp hx
      omega

theorem gradientName_ne_unalloc (i : ℕ) : gradientName i ≠ unallocName := by
  intro h
  rw [gradientName, unallocName] at h
  injection h with h1 h2
  exact absurd h1 (by decide)

/-- C7 (amended): in influence-gradient mode each point's score is the
mean of the named property over the based-on features within the fixed
radius (`none` exactly when no in-radius neighbour carries the
property, and such a point goes to the final bucket); the five
percentile cuts over the non-null scores give 6 bands for scored
points, each assigned to the first threshold it satisfies with `≤`
(above all cuts ⇒ sixth band); every output feature carries its score;
colors are positional with a white fallback.  Contrary to the claim,
the unallocated layer is NOT always emitted: like every band it is
emitted only when non-empty (`if data:`). -/
theorem C7_influence_amended (geod : Coord → Coord → ℚ) (key : Chars)
    (change based : List Feature) (radius : ℚ) (palette : List Chars)
    (layers : List GLayer)
    (hok : process_influence geod key change based radius palette =
      .ok layers) :
    ∀ scored thresholds,
      scored = change.map
        (fun f => average_metric geod key f.coords based radius) →
      thresholds = influencePercentiles.map (npPercentile scored.reduceOption) →
      thresholds.length = 5 ∧
      (∀ f : Feature,
        (average_metric geod key f.coords based radius = none ↔
          ∀ f2 ∈ based, ∀ v, f2.props.lookup key = some v →
            ¬ geod f.coords f2.coords ≤ radius)) ∧
      (∀ (v : ℚ) (i : ℕ), bandOf thresholds (some v) = i ↔
        ((∃ th, thresholds.get? i = some th ∧ v ≤ th) ∧
          ∀ j th, j < i → thresholds.get? j = some th → ¬ v ≤ th) ∨
        (i = 5 ∧ ∀ th ∈ thresholds, ¬ v ≤ th)) ∧
      bandOf thresholds none = 6 ∧
      layers = (((List.range 7).map
          (fun i => (i, bucketOf thresholds (change.zip scored) i))).filter
          (fun b => !b.2.isEmpty)).map (fun b =>
        ({ layer_name := if b.1 = 6 then unallocName
             else gradientName (b.1 + 1),
           points_color := if b.1 < palette.length
             then palette.getD b.1 whiteColor else whiteColor,
           features := b.2 } : GLayer)) ∧
      (∀ L ∈ layers, L.features ≠ []) ∧
      (∀ L ∈ layers, ∀ g ∈ L.features, ∃ fs,
        fs ∈ change.zip scored ∧ g = scoreTagged fs.1 fs.2 ∧
        g.influence_score = fs.2) ∧
      ((∃ L, L ∈ layers ∧ L.layer_name = unallocName) ↔
        bucketOf thresholds (change.zip scored) 6 ≠ []) := by
  intro scored thresholds hs ht
  have hlen : thresholds.length = 5 := by
    rw [ht, List.length_map]
    rfl
  rw [process_influence] at hok
  rw [← hs, ← ht] at hok
  have hlay : layers = (((List.range 7).map
      (fun i => (i, bucketOf thresholds (change.zip scored) i))).filter
      (fun b => !b.2.isEmpty)).map (fun b =>
    ({ layer_name := if b.1 = 6 then unallocName
         else gradientName (b.1 + 1),
       points_color := if b.1 < palette.length
         then palette.getD b.1 whiteColor else whiteColor,
       features := b.2 } : GLayer)) := by
    by_cases hemp : scored.reduceOption = []
    · rw [if_pos hemp] at hok
      cases hok
    · rw [if_neg hemp] at hok
      injection hok with hok
      rw [← hok, hlen]
  refine ⟨hlen, ?_, fun v i => by rw [bandOf_some_iff, hlen], ?_, hlay, ?_, ?_, ?_⟩
  · intro f
    rw [average_metric]
    constructor
    · intro hnone f2 hf2 v hv hle
      by_cases hemp : based.filterMap (fun f2 =>
          match f2.props.lookup key with
          | none => none
          | some v => if geod f.coords f2.coords ≤ radius
              then some v else none) = []
      · have := List.filterMap_eq_nil.mp hemp f2 hf2
        simp only [hv] at this
        rw [if_pos hle] at this
        cases this
      · rw [if_neg hemp] at hnone
        cases hnone
    · intro hall
      rw [if_pos]
      rw [List.filterMap_eq_nil]
      intro f2 hf2
      cases hv : f2.props.lookup key with
      | none => rfl
      | some v =>
        simp only [hv]
        rw [if_neg (hall f2 hf2 v hv)]
  · rw [bandOf, hlen]
  · intro L hL
    rw [hlay] at hL
    obtain ⟨b, hb, rfl⟩ := List.mem_map.mp hL
    have h2 : (!b.2.isEmpty) = true := (List.mem_filter.mp hb).2
    intro hnil
    have hb2 : b.2 = [] := hnil
    rw [hb2] at h2
    simp at h2
  · intro L hL g hg
    rw [hlay] at hL
    obtain ⟨b, hb, rfl⟩ := List.mem_map.mp hL
    have hmem := (List.mem_filter.mp hb).1
    obtain ⟨i, hi, hbi⟩ := List.mem_map.mp hmem
    simp only at hg
    rw [← hbi] at hg
    simp only at hg
    rw [bucketOf] at hg
    obtain ⟨fs, hfs, rfl⟩ := List.mem_map.mp hg
    exact ⟨fs, (List.mem_filter.mp hfs).1, rfl, rfl⟩
  · constructor
    · intro ⟨L, hL, hname⟩
      rw [hlay] at hL
      obtain ⟨b, hb, rfl⟩ := List.mem_map.mp hL
      simp only at hname
      have hmem := (List.mem_filter.mp hb).1
      have h2 := (List.mem_filter.mp hb).2
      obtain ⟨i, hi, hbi⟩ := List.mem_map.mp hmem
      subst hbi
      have h2' : (bucketOf thresholds (change.zip scored) i).isEmpty = false := by
        simpa using h2
      have hname' : (if i = 6 then unallocName else gradientName (i + 1)) =
          unallocName := hname
      by_cases h6 : i = 6
      · subst h6
        intro hnil
        rw [hnil] at h2'
        simp at h2'
      · rw [if_neg h6] at hname'
        exact absurd hname' (gradientName_ne_unalloc (i + 1))
    · intro hne
      rw [hlay]
      refine ⟨_, List.mem_map.mpr ⟨(6, bucketOf thresholds (change.zip scored) 6),
        List.mem_filter.mpr ⟨List.mem_map.mpr ⟨6, ?_, rfl⟩, ?_⟩, rfl⟩, ?_⟩
      · simp
      · show (!(bucketOf thresholds (change.zip scored) 6).isEmpty) = true
        cases hb2 : bucketOf thresholds (change.zip scored) 6 with
        | nil => exact absurd hb2 hne
        | cons a l => rfl
      · show (if (6 : ℕ) = 6 then unallocName else gradientName (6 + 1)) =
          unallocName
        rw [if_pos rfl]

/-- C7 counterexample: a run in which every point receives a score
emits NO "Unallocated Points" layer at all — the code guards every
bucket, including the unallocated one, with `if data:`, contradicting
the claim's "plus the unallocated layer". -/
theorem C7_counterexample :
    ∃ layers : List GLayer,
      process_influence (fun _ _ => 0) ['k'] [⟨⟨0, 0⟩, []⟩]
        [⟨⟨0, 0⟩, [(['k'], 5)]⟩] 100 [] = .ok layers ∧
      layers ≠ [] ∧
      ∀ L ∈ layers, L.layer_name ≠ unallocName := by
  have hlk : List.lookup (['k'] : Chars) [((['k'] : Chars), (5 : ℚ))] =
      some 5 := by
    simp [List.lookup]
  have ham : average_metric (fun _ _ => 0) ['k'] ⟨0, 0⟩
      [⟨⟨0, 0⟩, [(['k'], 5)]⟩] 100 = some 5 := by
    rw [average_metric]
    norm_num [hlk, List.filterMap_cons, List.filterMap_nil]
  have hnp : ∀ q : ℚ, npPercentile [5] q = 5 := by
    intro q
    rw [npPercentile]
    norm_num [List.mergeSort_singleton]
  have hok : process_influence (fun _ _ => 0) ['k'] [⟨⟨0, 0⟩, []⟩]
      [⟨⟨0, 0⟩, [(['k'], 5)]⟩] 100 [] =
      .ok [⟨gradientName 1, whiteColor, [⟨⟨0, 0⟩, [], some 5⟩]⟩] := by
    have hro : List.reduceOption [some (5 : ℚ)] = [5] := rfl
    rw [process_influence]
    simp only [List.map, ham, hro, influencePercentiles, hnp]
    norm_num [bucketOf, bandOf, List.findIdx?_cons, List.findIdx?_nil,
      List.zip, List.zipWith, List.filter, scoreTagged, List.range,
      List.range.loop, gradientName]
  refine ⟨_, hok, by simp, ?_⟩
  intro L hL
  rw [List.mem_singleton] at hL
  subst hL
  exact gradientName_ne_unalloc 1

theorem C7_influence_amended_witness :
    ∃ (layers : List GLayer) (thresholds : List ℚ),
      process_influence (fun _ _ => 0) ['k'] [⟨⟨0, 0⟩, []⟩]
        [⟨⟨0, 0⟩, [(['k'], 5)]⟩] 100 [] = .ok layers ∧
      thresholds.length = 5 ∧ bandOf thresholds none = 6 ∧
      (∀ L ∈ layers, L.features ≠ []) := by
  have hlk : List.lookup (['k'] : Chars) [((['k'] : Chars), (5 : ℚ))] =
      some 5 := by
    simp [List.lookup]
  have ham : average_metric (fun _ _ => 0) ['k'] ⟨0, 0⟩
      [⟨⟨0, 0⟩, [(['k'], 5)]⟩] 100 = some 5 := by
    rw [average_metric]
    norm_num [hlk, List.filterMap_cons, List.filterMap_nil]
  have hnp : ∀ q : ℚ, npPercentile [5] q = 5 := by
    intro q
    rw [npPercentile]
    norm_num [List.mergeSort_singleton]
  have hok : process_influence (fun _ _ => 0) ['k'] [⟨⟨0, 0⟩, []⟩]
      [⟨⟨0, 0⟩, [(['k'], 5)]⟩] 100 [] =
      .ok [⟨gradientName 1, whiteColor, [⟨⟨0, 0⟩, [], some 5⟩]⟩] := by
    have hro : List.reduceOption [some (5 : ℚ)] = [5] := rfl
    rw [process_influence]
    simp only [List.map, ham, hro, influencePercentiles, hnp]
    norm_num [bucketOf, bandOf, List.findIdx?_cons, List.findIdx?_nil,
      List.zip, List.zipWith, List.filter, scoreTagged, List.range,
      List.range.loop, gradientName]
  obtain ⟨h1, h2, h3, h4, h5, h6, h7, h8⟩ :=
    C7_influence_amended (fun _ _ => 0) ['k'] [⟨⟨0, 0⟩, []⟩]
      [⟨⟨0, 0⟩, [(['k'], 5)]⟩] 100 [] _ hok _ _ rfl rfl
  exact ⟨_, _, hok, h1, h4, h6⟩

theorem count_bucket {α : Type} [DecidableEq α] (a : α) (g : α → ℕ) (i : ℕ)
    (l : List α) :
    (l.filter (fun x => g x == i)).count a =
      if g a = i then l.count a else 0 := by
  by_cases h : g a = i
  · rw [if_pos h]
    exact List.count_filter (by simpa using h)
  · rw [if_neg h]
    rw [List.count_eq_zero]
    intro hmem
    have h2 := (List.mem_filter.mp hmem).2
    exact h (by simpa using h2)

theorem sum_ite_range (c : ℕ) (k : ℕ) :
    ∀ n : ℕ, ((List.range n).map (fun i => if k = i then c else 0)).sum =
      if k < n then c else 0 := by
  intro n
  induction n with
  | zero => simp
  | succ n ih =>
    rw [List.range_succ, List.map_append, List.sum_append, ih]
    by_cases h : k < n
    · rw [if_pos h, if_pos (by omega)]
      rw [List.map_singleton, if_neg (by omega), List.sum_singleton]
      omega
    · rw [if_neg h]
      by_cases h2 : k = n
      · subst h2
        rw [if_pos (by omega)]
        simp
      · rw [if_neg (by omega)]
        rw [List.map_singleton, if_neg h2, List.sum_singleton]

theorem join_fiber_perm {α : Type} [DecidableEq α] (g : α → ℕ) (l : List α)
    (n : ℕ) (h : ∀ x ∈ l, g x < n) :
    (((List.range n).map (fun i => l.filter (fun x => g x == i))).join).Perm
      l := by
  rw [List.perm_iff_count]
  intro a
  rw [List.count_join, List.map_map]
  have hmap : (List.count a ∘ fun i => l.filter (fun x => g x == i)) =
      fun i => if g a = i then l.count a else 0 := by
    funext i
    exact count_bucket a g i l
  rw [hmap, sum_ite_range]
  by_cases hmem : a ∈ l
  · rw [if_pos (h a hmem)]
  · rw [List.count_eq_zero_of_not_mem hmem]
    split <;> rfl

theorem join_filter_isEmpty {α : Type} :
    ∀ l : List (List α),
      ((l.filter (fun x => !x.isEmpty)).join) = l.join := by
  intro l
  induction l with
  | nil => rfl
  | cons x xs ih =>
    rw [List.filter_cons]
    cases x with
    | nil =>
      simp only [List.isEmpty_nil, Bool.not_true]
      rw [if_neg (by simp)]
      show (List.filter (fun x => !x.isEmpty) xs).join = xs.join
      exact ih
    | cons y ys =>
      simp only [List.isEmpty_cons, Bool.not_false]
      rw [if_pos trivial]
      show (y :: ys) ++ (List.filter (fun x => !x.isEmpty) xs).join =
        (y :: ys) ++ xs.join
      rw [ih]

theorem filterMap_id_of {α : Type} (F : α → Option α) :
    ∀ l : List α, (∀ a ∈ l, F a = some a) → l.filterMap F = l := by
  intro l
  induction l with
  | nil => intro _; rfl
  | cons x xs ih =>
    intro h
    rw [List.filterMap_cons, h x (List.mem_cons_self x xs),
      ih (fun a ha => h a (List.mem_cons_of_mem x ha))]

theorem coordsMatch_self (f : Feature) : coordsMatch f.coords f = true := by
  rw [coordsMatch]
  simp

theorem find?_coords_self :
    ∀ change : List Feature, (change.map (fun f => f.coords)).Nodup →
      ∀ f ∈ change, change.find? (coordsMatch f.coords) = some f := by
  intro change
  induction change with
  | nil => intro _ f hf; cases hf
  | cons c rest ih =>
    intro hnd f hf
    rw [List.map_cons, List.nodup_cons] at hnd
    rcases List.mem_cons.mp hf with hf | hf
    · subst hf
      exact List.find?_cons_of_pos rest (coordsMatch_self f)
    · by_cases hb : coordsMatch f.coords c = true
      · exfalso
        rw [coordsMatch, Bool.and_eq_true, decide_eq_true_eq,
          decide_eq_true_eq] at hb
        obtain ⟨hlat, hlng⟩ := hb
        have hcc : c.coords = f.coords := by
          cases hcc1 : c.coords with
          | mk a b =>
            cases hcc2 : f.coords with
            | mk a2 b2 =>
              rw [hcc1, hcc2] at hlat hlng
              rw [show (⟨a, b⟩ : Coord).latitude = a from rfl,
                show (⟨a2, b2⟩ : Coord).latitude = a2 from rfl] at hlat
              rw [show (⟨a, b⟩ : Coord).longitude = b from rfl,
                show (⟨a2, b2⟩ : Coord).longitude = b2 from rfl] at hlng
              rw [hlat, hlng]
        apply hnd.1
        rw [hcc]
        exact List.mem_map_of_mem (fun f => f.coords) hf
      · rw [List.find?_cons_of_neg rest hb, ih hnd.2 f hf]

theorem fillBuckets_perm (change : List Feature) (cov : ℚ) :
    ∀ ms : List (Coord × Option ℕ),
      ((fillBuckets change cov ms).1 ++ (fillBuckets change cov ms).2.1 ++
        (fillBuckets change cov ms).2.2).Perm
        (ms.filterMap (fun tm => change.find? (coordsMatch tm.1))) := by
  intro ms
  induction ms with
  | nil => exact List.Perm.refl []
  | cons tm rest ih =>
    obtain ⟨t, m⟩ := tm
    rw [fillBuckets, List.filterMap_cons]
    cases hf : change.find? (coordsMatch t) with
    | none =>
      simp only [hf]
      exact ih
    | some f =>
      cases m with
      | none =>
        simp only [hf]
        exact List.Perm.trans List.perm_middle (List.Perm.cons f ih)
      | some v =>
        simp only [hf]
        by_cases hv : (v : ℚ) / 60 ≤ cov
        · rw [if_pos hv]
          exact List.Perm.cons f ih
        · rw [if_neg hv]
          exact List.Perm.trans (List.perm_middle.append_right _)
            (List.Perm.cons f ih)

theorem influence_buckets_join_perm (th : List ℚ)
    (ws : List (Feature × Option ℚ)) :
    ((((List.range (th.length + 2)).map (fun i => (i, bucketOf th ws i))).filter
      (fun b => !b.2.isEmpty)).map (fun b => b.2)).join.Perm
      (ws.map (fun fs => scoreTagged fs.1 fs.2)) := by
  have h2 : (((List.range (th.length + 2)).map
      (fun i => (i, bucketOf th ws i))).filter
      (fun b => !b.2.isEmpty)).map (fun (b : ℕ × List OutFeature) => b.2) =
      (((List.range (th.length + 2)).map
        (fun i => (i, bucketOf th ws i))).map
        (fun (b : ℕ × List OutFeature) => b.2)).filter
        (fun x => !x.isEmpty) :=
    (@List.filter_map (ℕ × List OutFeature) (List OutFeature)
      (fun x => !x.isEmpty) (fun b => b.2)
      ((List.range (th.length + 2)).map
        (fun i => (i, bucketOf th ws i)))).symm
  rw [h2, join_filter_isEmpty, List.map_map]
  have h4 : ((fun (b : ℕ × List OutFeature) => b.2) ∘
      (fun i => (i, bucketOf th ws i))) =
      fun i => (ws.filter (fun fs => bandOf th fs.2 == i)).map
        (fun fs => scoreTagged fs.1 fs.2) := by
    funext i
    rfl
  rw [h4]
  have h5 : (List.range (th.length + 2)).map
      (fun i => (ws.filter (fun fs => bandOf th fs.2 == i)).map
        (fun fs => scoreTagged fs.1 fs.2)) =
      ((List.range (th.length + 2)).map
        (fun i => ws.filter (fun fs => bandOf th fs.2 == i))).map
        (List.map (fun fs => scoreTagged fs.1 fs.2)) := by
    rw [List.map_map]
    rfl
  rw [h5]
  have h6 : (((List.range (th.length + 2)).map
      (fun i => ws.filter (fun fs => bandOf th fs.2 == i))).map
      (List.map (fun fs => scoreTagged fs.1 fs.2))).join =
      (((List.range (th.length + 2)).map
        (fun i => ws.filter (fun fs => bandOf th fs.2 == i))).join).map
        (fun fs => scoreTagged fs.1 fs.2) :=
    (List.map_flatten _ _).symm
  rw [h6]
  exact (join_fiber_perm (fun fs => bandOf th fs.2) ws (th.length + 2)
    (fun x _ => bandOf_lt th x.2)).map _

/-- C8 (amended): the emitted layers of one classification run contain
their inputs as a multiset partition, with a caveat the claim misses.
Influence mode: unconditionally, the concatenation of all emitted
layers' features is a permutation of the score-tagged copies of the
change features, one per input feature.  Drive-time mode: the same
holds when the change features have pairwise distinct coordinates; with
duplicated coordinates the first-match lookup loop re-emits the first
matching feature and drops the other (see the counterexample). -/
theorem C8_amended_partition :
    (∀ (geod : Coord → Coord → ℚ) (key : Chars) (change based : List Feature)
        (radius : ℚ) (palette : List Chars) (layers : List GLayer),
      process_influence geod key change based radius palette = .ok layers →
      ∃ scored : List (Option ℚ),
        scored.length = change.length ∧
        (change.zip scored).map Prod.fst = change ∧
        ((layers.map (fun L => L.features)).join).Perm
          ((change.zip scored).map (fun fs => scoreTagged fs.1 fs.2))) ∧
    (∀ (hav geod : Coord → Coord → ℚ) (oracle : Coord → Coord → RouteResp)
        (change based : List Feature) (cov : ℚ) (palette : List Chars)
        (layers : List ZLayer),
      process_drive_time hav geod oracle change based cov palette =
        .ok layers →
      (change.map (fun f => f.coords)).Nodup →
      ((layers.map (fun L => L.features)).join).Perm change) := by
  constructor
  · intro geod key change based radius palette layers hok
    refine ⟨change.map (fun f => average_metric geod key f.coords based radius),
      by rw [List.length_map],
      List.map_fst_zip _ _ (by rw [List.length_map]), ?_⟩
    rw [process_influence] at hok
    by_cases hemp : (change.map (fun f =>
        average_metric geod key f.coords based radius)).reduceOption = []
    · rw [if_pos hemp] at hok
      cases hok
    · rw [if_neg hemp] at hok
      injection hok with hok
      rw [← hok, List.map_map]
      exact influence_buckets_join_perm _ _
  · intro hav geod oracle change based cov palette layers hok hnd
    rw [process_drive_time] at hok
    obtain ⟨ms, hms, hpure⟩ := exceptBind_ok _ _ _ hok
    injection hpure with hpure
    obtain ⟨hlen, hfst, hget⟩ := mapM_minStatic_spec _ ms hms
    have hrrfst : (route_results oracle (drive_filtered geod cov
        (calculate_nearest_points hav (based.map (fun f => f.coords))
          (change.map (fun f => f.coords)) 2))).map Prod.fst =
        change.map (fun f => f.coords) := by
      rw [route_results, List.map_map, drive_filtered, List.map_map,
        calculate_nearest_points, List.map_map]
      exact List.map_id' _
    have hmsfst : ms.map Prod.fst = change.map (fun f => f.coords) :=
      hfst.trans hrrfst
    rw [← hpure]
    have h1 : (driveLayers palette (fillBuckets change cov ms).1
        (fillBuckets change cov ms).2.1 (fillBuckets change cov ms).2.2).map
        (fun L => L.features) =
        ([(fillBuckets change cov ms).1, (fillBuckets change cov ms).2.1,
          (fillBuckets change cov ms).2.2] : List (List Feature)).filter
          (fun x => !x.isEmpty) := by
      rw [driveLayers]
      exact (@List.filter_map ZLayer (List Feature) (fun x => !x.isEmpty)
        (fun L => L.features) _).symm
    rw [h1, join_filter_isEmpty]
    have hjoin : ([(fillBuckets change cov ms).1,
        (fillBuckets change cov ms).2.1,
        (fillBuckets change cov ms).2.2] : List (List Feature)).join =
        (fillBuckets change cov ms).1 ++ (fillBuckets change cov ms).2.1 ++
          (fillBuckets change cov ms).2.2 := by
      simp
    rw [hjoin]
    refine (fillBuckets_perm change cov ms).trans ?_
    have hfm : ms.filterMap (fun tm => change.find? (coordsMatch tm.1)) =
        change := by
      have e1 : ms.filterMap (fun tm => change.find? (coordsMatch tm.1)) =
          (ms.map Prod.fst).filterMap
            (fun t => change.find? (coordsMatch t)) :=
        (@List.filterMap_map _ _ _ Prod.fst
          (fun t => change.find? (coordsMatch t)) ms).symm
      rw [e1, hmsfst, List.filterMap_map]
      apply filterMap_id_of
      intro f hf
      exact find?_coords_self change hnd f hf
    rw [hfm]

/-- C8 counterexample: in drive-time mode with two distinct change
features sharing the same coordinates, the first-match lookup loop
emits the first feature twice and the second not at all — the output
layers do not partition the input. -/
theorem C8_counterexample :
    ∃ layers : List ZLayer,
      process_drive_time (fun _ _ => 0) (fun _ _ => 0)
        (fun _ _ => RouteResp.errorResp)
        [⟨⟨0, 0⟩, []⟩, ⟨⟨0, 0⟩, [(['k'], 1)]⟩] [] 1 [['#', 'A']] =
        .ok layers ∧
      (⟨⟨0, 0⟩, [(['k'], 1)]⟩ : Feature) ∈
        ([⟨⟨0, 0⟩, []⟩, ⟨⟨0, 0⟩, [(['k'], 1)]⟩] : List Feature) ∧
      (layers.map (fun L => L.features)).join =
        [⟨⟨0, 0⟩, []⟩, ⟨⟨0, 0⟩, []⟩] ∧
      (⟨⟨0, 0⟩, [(['k'], 1)]⟩ : Feature) ≠ ⟨⟨0, 0⟩, []⟩ := by
  have hok : process_drive_time (fun _ _ => 0) (fun _ _ => 0)
      (fun _ _ => RouteResp.errorResp)
      [⟨⟨0, 0⟩, []⟩, ⟨⟨0, 0⟩, [(['k'], 1)]⟩] [] 1 [['#', 'A']] =
      .ok [⟨unallocTag, whiteColor,
        [⟨⟨0, 0⟩, []⟩, ⟨⟨0, 0⟩, []⟩]⟩] := by
    rw [process_drive_time]
    simp only [List.map, calculate_nearest_points, List.mergeSort_nil]
    norm_num [drive_filtered, route_results, minStaticAux, fillBuckets,
      driveLayers, coordsMatch, List.mapM.loop, Except.map, Except.bind,
      Bind.bind, Functor.map, List.find?, List.filter, Pure.pure,
      Except.pure]
  refine ⟨_, hok, by simp, by simp, by simp⟩

theorem C8_amended_partition_witness :
    (∃ layers : List GLayer, ∃ scored : List (Option ℚ),
      process_influence (fun _ _ => 0) ['k'] [⟨⟨0, 0⟩, []⟩]
        [⟨⟨0, 0⟩, [(['k'], 5)]⟩] 100 [] = .ok layers ∧
      ((layers.map (fun L => L.features)).join).Perm
        ((([⟨⟨0, 0⟩, []⟩] : List Feature).zip scored).map
          (fun fs => scoreTagged fs.1 fs.2))) ∧
    (∃ layers : List ZLayer,
      process_drive_time (fun _ _ => 0) (fun _ _ => 0)
        (fun _ _ => RouteResp.routeResp [⟨some ['6', '0', 's']⟩])
        [⟨⟨0, 0⟩, []⟩] [⟨⟨0, 0⟩, []⟩] 1 [['#', 'A']] = .ok layers ∧
      ((layers.map (fun L => L.features)).join).Perm [⟨⟨0, 0⟩, []⟩]) := by
  constructor
  · have hlk : List.lookup (['k'] : Chars) [((['k'] : Chars), (5 : ℚ))] =
        some 5 := by
      simp [List.lookup]
    have ham : average_metric (fun _ _ => 0) ['k'] ⟨0, 0⟩
        [⟨⟨0, 0⟩, [(['k'], 5)]⟩] 100 = some 5 := by
      rw [average_metric]
      norm_num [hlk, List.filterMap_cons, List.filterMap_nil]
    have hnp : ∀ q : ℚ, npPercentile [5] q = 5 := by
      intro q
      rw [npPercentile]
      norm_num [List.mergeSort_singleton]
    have hok : process_influence (fun _ _ => 0) ['k'] [⟨⟨0, 0⟩, []⟩]
        [⟨⟨0, 0⟩, [(['k'], 5)]⟩] 100 [] =
        .ok [⟨gradientName 1, whiteColor, [⟨⟨0, 0⟩, [], some 5⟩]⟩] := by
      have hro : List.reduceOption [some (5 : ℚ)] = [5] := rfl
      rw [process_influence]
      simp only [List.map, ham, hro, influencePercentiles, hnp]
      norm_num [bucketOf, bandOf, List.findIdx?_cons, List.findIdx?_nil,
        List.zip, List.zipWith, List.filter, scoreTagged, List.range,
        List.range.loop, gradientName]
    obtain ⟨scored, hs1, hs2, hs3⟩ :=
      C8_amended_partition.1 (fun _ _ => 0) ['k'] [⟨⟨0, 0⟩, []⟩]
        [⟨⟨0, 0⟩, [(['k'], 5)]⟩] 100 [] _ hok
    exact ⟨_, scored, hok, hs3⟩
  · have hss : staticSeconds? ['6', '0', 's'] = some 60 := by decide
    have hok : process_drive_time (fun _ _ => 0) (fun _ _ => 0)
        (fun _ _ => RouteResp.routeResp [⟨some ['6', '0', 's']⟩])
        [⟨⟨0, 0⟩, []⟩] [⟨⟨0, 0⟩, []⟩] 1 [['#', 'A']] =
        .ok [⟨withinTag, ['#', 'A'], [⟨⟨0, 0⟩, []⟩]⟩] := by
      rw [process_drive_time]
      simp only [List.map, calculate_nearest_points, List.mergeSort_singleton]
      norm_num [drive_filtered, route_results, estimatedDistance,
        AVERAGE_SPEED_MPS, minStaticAux, hss, fillBuckets, driveLayers,
        coordsMatch, List.mapM.loop]
      rw [if_neg (by decide : ¬((['6', '0', 's'] : Chars) = []))]
      simp only [Functor.map, Except.map]
      norm_num [List.filter]
    have hnd : (([⟨⟨0, 0⟩, []⟩] : List Feature).map
        (fun f => f.coords)).Nodup := by simp
    exact ⟨_, hok, C8_amended_partition.2 (fun _ _ => 0) (fun _ _ => 0)
      (fun _ _ => RouteResp.routeResp [⟨some ['6', '0', 's']⟩])
      [⟨⟨0, 0⟩, []⟩] [⟨⟨0, 0⟩, []⟩] 1 [['#', 'A']] _ hok hnd⟩
